import Mathlib

/-
Verification of the pytato code-generation core (pytato/codegen.py) and its
graph-transformation framework (pytato/transform.py) against their design
specification.  The development shallowly embeds the two modules: scalar
expressions, the unique-name generators, the lowering state and per-kind
lowering rules of CodeGenMapper, the add_store / domain_for_shape /
rename_reductions utilities and the generate_loopy entry point, as well as
the CopyMapper / DependencyMapper / WalkMapper traversals.  Recursions over
the expression DAG are written with an explicit fuel parameter (the Python
code recurses natively; fuel exhaustion models divergence) and fallible
operations (Python assertions, KeyError lookups, unsupported node kinds)
return Option values.
-/

set_option maxHeartbeats 2000000

namespace Pytato

/-! ## Decimal rendering of numbers (Python f-string formatting of ints) -/

/-- Character for a single decimal digit. -/
def digitChar : Nat → Char
  | 0 => '0'
  | 1 => '1'
  | 2 => '2'
  | 3 => '3'
  | 4 => '4'
  | 5 => '5'
  | 6 => '6'
  | 7 => '7'
  | 8 => '8'
  | 9 => '9'
  | _ + 10 => '*'

theorem digitChar_inj {a b : Nat} (ha : a < 10) (hb : b < 10)
    (h : digitChar a = digitChar b) : a = b := by
  interval_cases a <;> interval_cases b <;> simp_all [digitChar]

/-- Decimal digit list of a natural number, most significant first, driven by
an explicit fuel so that it is structurally recursive. -/
def natChars : Nat → Nat → List Char
  | 0, _ => []
  | fuel + 1, n =>
    if n < 10 then [digitChar n]
    else natChars fuel (n / 10) ++ [digitChar (n % 10)]

/-- Decimal rendering of a natural number, exactly as Python renders a
non-negative int in an f-string. -/
def natStr (n : Nat) : String := String.mk (natChars (n + 1) n)

/-- Decimal rendering of an integer, as Python renders an int. -/
def intStr (z : Int) : String :=
  if z < 0 then "-" ++ natStr z.natAbs else natStr z.toNat

theorem natChars_ne_nil {fuel n : Nat} : natChars (fuel + 1) n ≠ [] := by
  unfold natChars
  split <;> simp

theorem natChars_inj : ∀ (f1 f2 n m : Nat), n < 10 ^ f1 → m < 10 ^ f2 →
    natChars f1 n = natChars f2 m → n = m := by
  intro f1
  induction f1 with
  | zero =>
    intro f2 n m hn hm heq
    have hn0 : n = 0 := by simpa using hn
    match f2 with
    | 0 =>
      have hm0 : m = 0 := by simpa using hm
      omega
    | f2' + 1 =>
      exfalso
      exact natChars_ne_nil heq.symm
  | succ f1' ih =>
    intro f2 n m hn hm heq
    match f2 with
    | 0 =>
      exfalso
      exact natChars_ne_nil heq
    | f2' + 1 =>
      by_cases h1 : n < 10 <;> by_cases h2 : m < 10
      · simp only [natChars, if_pos h1, if_pos h2] at heq
        exact digitChar_inj h1 h2 (by simpa using heq)
      · exfalso
        simp only [natChars, if_pos h1, if_neg h2] at heq
        have hf2 : 1 ≤ f2' := by
          by_contra hc
          have hz : f2' = 0 := by omega
          subst hz
          norm_num at hm
          omega
        match f2', hf2 with
        | f2'' + 1, _ =>
          rcases h : natChars (f2'' + 1) (m / 10) with _ | ⟨c, cs⟩
          · exact natChars_ne_nil h
          · rw [h] at heq
            simp at heq
      · exfalso
        simp only [natChars, if_neg h1, if_pos h2] at heq
        have hf1 : 1 ≤ f1' := by
          by_contra hc
          have hz : f1' = 0 := by omega
          subst hz
          norm_num at hn
          omega
        match f1', hf1 with
        | f1'' + 1, _ =>
          rcases h : natChars (f1'' + 1) (n / 10) with _ | ⟨c, cs⟩
          · exact natChars_ne_nil h
          · rw [h] at heq
            simp at heq
      · simp only [natChars, if_neg h1, if_neg h2] at heq
        have hlen : [digitChar (n % 10)].length = [digitChar (m % 10)].length := by simp
        obtain ⟨hpre, hlast⟩ := List.append_inj' heq hlen
        have hdiv : n / 10 = m / 10 := by
          refine ih f2' (n / 10) (m / 10) ?_ ?_ hpre
          · have hpow : 10 ^ (f1' + 1) = 10 ^ f1' * 10 := by ring
            omega
          · have hpow : 10 ^ (f2' + 1) = 10 ^ f2' * 10 := by ring
            omega
        have hmod : n % 10 = m % 10 := by
          have hdig := digitChar_inj (a := n % 10) (b := m % 10) (by omega) (by omega)
          simp only [List.cons.injEq, and_true] at hlast
          exact hdig hlast
        omega

theorem lt_ten_pow_succ (n : Nat) : n < 10 ^ (n + 1) := by
  have h1 : n < 10 ^ n := Nat.lt_pow_self (by norm_num) n
  have h2 : 10 ^ n ≤ 10 ^ (n + 1) := Nat.pow_le_pow_right (by norm_num) (by omega)
  omega

theorem natStr_inj : Function.Injective natStr := by
  intro n m h
  have hd : natChars (n + 1) n = natChars (m + 1) m := by
    have hdata := congrArg String.data h
    simpa [natStr] using hdata
  exact natChars_inj (n + 1) (m + 1) n m (lt_ten_pow_succ n) (lt_ten_pow_succ m) hd

/-! ## String utilities -/

theorem string_append_data (a b : String) : (a ++ b).data = a.data ++ b.data := rfl

theorem string_append_right_inj {a x y : String} (h : a ++ x = a ++ y) : x = y := by
  apply String.ext
  have := congrArg String.data h
  rw [string_append_data, string_append_data] at this
  exact List.append_cancel_left this

/-- Lexicographic-ish boolean comparison on strings; only used as the sort
order for isl set/parameter dimension names.  Structurally recursive so that
concrete sorts evaluate inside the kernel. -/
def charListLe : List Char → List Char → Bool
  | [], _ => true
  | _ :: _, [] => false
  | a :: as, b :: bs =>
    if a.toNat < b.toNat then true
    else if b.toNat < a.toNat then false
    else charListLe as bs

def strLe (a b : String) : Bool := charListLe a.data b.data

/-- Insertion into a sorted list, used by our model of Python's sorted(). -/
def orderedInsert (a : String) : List String → List String
  | [] => [a]
  | b :: bs => if strLe a b then a :: b :: bs else b :: orderedInsert a bs

/-- Model of Python's sorted() on a list of strings (stable insertion sort;
only the multiset of elements matters for the properties proved below). -/
def sortStrings : List String → List String
  | [] => []
  | a :: as => orderedInsert a (sortStrings as)

theorem orderedInsert_perm (a : String) (l : List String) :
    (orderedInsert a l).Perm (a :: l) := by
  induction l with
  | nil => simp [orderedInsert]
  | cons b bs ih =>
    simp only [orderedInsert]
    split
    · exact List.Perm.refl _
    · exact ((ih.cons b).trans (List.Perm.swap a b bs))

theorem sortStrings_perm (l : List String) : (sortStrings l).Perm l := by
  induction l with
  | nil => simp [sortStrings]
  | cons a as ih =>
    exact (orderedInsert_perm a (sortStrings as)).trans (ih.cons a)

theorem mem_sortStrings {x : String} {l : List String} :
    x ∈ sortStrings l ↔ x ∈ l :=
  (sortStrings_perm l).mem_iff

/-- Deduplication keeping the first occurrence (the order Python set
iteration may produce is irrelevant; only membership is). -/
def dedupStrings : List String → List String
  | [] => []
  | a :: as => if a ∈ as then dedupStrings as else a :: dedupStrings as

theorem mem_dedupStrings {x : String} {l : List String} :
    x ∈ dedupStrings l ↔ x ∈ l := by
  induction l with
  | nil => simp [dedupStrings]
  | cons a as ih =>
    simp only [dedupStrings]
    split
    · rename_i h
      simp only [List.mem_cons, ih]
      constructor
      · exact Or.inr
      · rintro (rfl | hx)
        · exact h
        · exact hx
    · simp [ih]

/-! ## Scalar expressions

The fragment of the pymbolic scalar-expression algebra that pytato's code
generator manipulates: integer constants, variables (prim.Variable),
subscripts of a variable (prim.Subscript — codegen asserts the aggregate is
a Variable), arithmetic, and loopy Reduction nodes.  `varb` is
prim.Variable (the natural name is a Lean keyword); `emod` is Python `%`.
-/

inductive ScalarExpr where
  | const (n : Int)
  | varb (name : String)
  | subscript (agg : String) (idx : List ScalarExpr)
  | add (a b : ScalarExpr)
  | sub (a b : ScalarExpr)
  | mul (a b : ScalarExpr)
  | emod (a b : ScalarExpr)
  | reduction (op : String) (inames : List String) (body : ScalarExpr)

namespace ScalarExpr

mutual

def beq : ScalarExpr → ScalarExpr → Bool
  | .const n, .const m => n == m
  | .varb x, .varb y => x == y
  | .subscript x i, .subscript y j => x == y && beqList i j
  | .add a1 a2, .add b1 b2 => beq a1 b1 && beq a2 b2
  | .sub a1 a2, .sub b1 b2 => beq a1 b1 && beq a2 b2
  | .mul a1 a2, .mul b1 b2 => beq a1 b1 && beq a2 b2
  | .emod a1 a2, .emod b1 b2 => beq a1 b1 && beq a2 b2
  | .reduction o1 i1 b1, .reduction o2 i2 b2 => o1 == o2 && i1 == i2 && beq b1 b2
  | _, _ => false

def beqList : List ScalarExpr → List ScalarExpr → Bool
  | [], [] => true
  | x :: xs, y :: ys => beq x y && beqList xs ys
  | _, _ => false

end

mutual

theorem beq_iff : ∀ (a b : ScalarExpr), beq a b = true ↔ a = b
  | .const n, b => by cases b <;> simp [beq]
  | .varb x, b => by cases b <;> simp [beq]
  | .subscript x i, b => by
    cases b <;> simp [beq]
    rename_i y j
    intro _
    exact beqList_iff i j
  | .add a1 a2, b => by
    cases b <;> simp [beq]
    rename_i b1 b2
    rw [beq_iff a1 b1, beq_iff a2 b2]
  | .sub a1 a2, b => by
    cases b <;> simp [beq]
    rename_i b1 b2
    rw [beq_iff a1 b1, beq_iff a2 b2]
  | .mul a1 a2, b => by
    cases b <;> simp [beq]
    rename_i b1 b2
    rw [beq_iff a1 b1, beq_iff a2 b2]
  | .emod a1 a2, b => by
    cases b <;> simp [beq]
    rename_i b1 b2
    rw [beq_iff a1 b1, beq_iff a2 b2]
  | .reduction o1 i1 b1, b => by
    cases b <;> simp [beq]
    rename_i o2 i2 b2
    rw [beq_iff b1 b2, and_assoc]

theorem beqList_iff : ∀ (as bs : List ScalarExpr), beqList as bs = true ↔ as = bs
  | [], bs => by cases bs <;> simp [beqList]
  | a :: as, bs => by
    cases bs <;> simp [beqList]
    rename_i b bs'
    rw [beq_iff a b, beqList_iff as bs']

end

instance : DecidableEq ScalarExpr := fun a b => decidable_of_iff _ (beq_iff a b)

end ScalarExpr

/-! ## Association lists (Python dict with insertion order) -/

/-- Python dict lookup. -/
def lookupA {α β : Type} [DecidableEq α] : List (α × β) → α → Option β
  | [], _ => none
  | (k, v) :: rest, key => if k = key then some v else lookupA rest key

/-- Python dict assignment: overwrite in place if the key is present,
otherwise append at the end (insertion order). -/
def setA {α β : Type} [DecidableEq α] : List (α × β) → α → β → List (α × β)
  | [], key, v => [(key, v)]
  | (k, v') :: rest, key, v =>
    if k = key then (key, v) :: rest else (k, v') :: setA rest key v

/-- Python dict.update: assign every entry of the second dict in order. -/
def updateA {α β : Type} [DecidableEq α] (d : List (α × β)) (other : List (α × β)) :
    List (α × β) :=
  other.foldl (fun acc kv => setA acc kv.1 kv.2) d

/-- Keys of an association list. -/
def keysA {α β : Type} (d : List (α × β)) : List α := d.map Prod.fst

theorem lookupA_isSome_iff_mem_keys {α β : Type} [DecidableEq α]
    (d : List (α × β)) (key : α) : (lookupA d key).isSome ↔ key ∈ keysA d := by
  induction d with
  | nil => simp [lookupA, keysA]
  | cons kv rest ih =>
    obtain ⟨k, v⟩ := kv
    simp only [lookupA, keysA, List.map_cons, List.mem_cons]
    split
    · rename_i h
      simp [h.symm]
    · rename_i h
      simp only [keysA] at ih
      rw [ih]
      constructor
      · exact fun hx => Or.inr hx
      · rintro (rfl | hx)
        · exact absurd rfl h
        · exact hx

theorem keysA_setA {α β : Type} [DecidableEq α] (d : List (α × β)) (key : α) (v : β) :
    keysA (setA d key v) = if key ∈ keysA d then keysA d else keysA d ++ [key] := by
  induction d with
  | nil => simp [setA, keysA]
  | cons kv rest ih =>
    obtain ⟨k, v'⟩ := kv
    simp only [setA, keysA, List.map_cons]
    by_cases h : k = key
    · subst h
      simp [keysA]
    · rw [if_neg h]
      simp only [List.map_cons, keysA] at ih ⊢
      rw [ih]
      by_cases hm : key ∈ List.map Prod.fst rest
      · simp [hm, List.mem_cons, Ne.symm h]
      · simp [hm, List.mem_cons, Ne.symm h]

/-! ## Substitution and dependencies of scalar expressions

pytato.scalar_expr exposes substitute() and get_dependencies(), thin
wrappers around pymbolic's substitution and dependency mappers.  That
module is an external collaborator of the code under verification.
Modelled from the spec: section 6 describes them as pure functions
substitute(expr, name->expr) replacing variable occurrences (including
reduction inames, section 4.10: reduction renaming substitutes every old
reduction-variable occurrence with its fresh counterpart) and
free_variables(expr) collecting the free symbolic variables. -/

namespace ScalarExpr

/-- Renaming applied to a bare name position (a subscript aggregate or a
reduction iname): follows the substitution when it maps the name to a
variable. -/
def renameIfVar (subs : List (String × ScalarExpr)) (name : String) : String :=
  match lookupA subs name with
  | some (.varb n') => n'
  | _ => name

mutual

/-- Modelled from the spec: scalar_expr.substitute (external, section 6). -/
def subst (subs : List (String × ScalarExpr)) : ScalarExpr → ScalarExpr
  | .const n => .const n
  | .varb name =>
    match lookupA subs name with
    | some e => e
    | none => .varb name
  | .subscript agg idx => .subscript (renameIfVar subs agg) (substList subs idx)
  | .add a b => .add (subst subs a) (subst subs b)
  | .sub a b => .sub (subst subs a) (subst subs b)
  | .mul a b => .mul (subst subs a) (subst subs b)
  | .emod a b => .emod (subst subs a) (subst subs b)
  | .reduction op inames body =>
    .reduction op (inames.map (renameIfVar subs)) (subst subs body)

def substList (subs : List (String × ScalarExpr)) : List ScalarExpr → List ScalarExpr
  | [] => []
  | e :: es => subst subs e :: substList subs es

end

mutual

/-- Modelled from the spec: scalar_expr.get_dependencies (external,
section 6): the free symbolic variables of an expression. -/
def freeVars : ScalarExpr → List String
  | .const _ => []
  | .varb name => [name]
  | .subscript agg idx => agg :: freeVarsList idx
  | .add a b => freeVars a ++ freeVars b
  | .sub a b => freeVars a ++ freeVars b
  | .mul a b => freeVars a ++ freeVars b
  | .emod a b => freeVars a ++ freeVars b
  | .reduction _ _ body => freeVars body

def freeVarsList : List ScalarExpr → List String
  | [] => []
  | e :: es => freeVars e ++ freeVarsList es

end

/-- The names the inlined-expression generator resolves through the
namespaces: bare variables and subscript aggregates (subscript indices are
passed through literally, codegen.py map_subscript). -/
def scalarRefs : ScalarExpr → List String
  | .const _ => []
  | .varb name => [name]
  | .subscript agg _ => [agg]
  | .add a b => scalarRefs a ++ scalarRefs b
  | .sub a b => scalarRefs a ++ scalarRefs b
  | .mul a b => scalarRefs a ++ scalarRefs b
  | .emod a b => scalarRefs a ++ scalarRefs b
  | .reduction _ _ body => scalarRefs body

end ScalarExpr

/-! ## Unique name generators

Model of pytools.UniqueNameGenerator (external collaborator) as observed
through codegen.py: calling the generator with a base name returns the
first of base, base_0, base_1, ... that does not conflict with an existing
name, and records it; add_name reserves a name, failing on a conflict.
The `generated` field instruments the model with the list of names the
generator itself produced (most recent first). -/

structure NameGen where
  existing : List String
  generated : List String
deriving DecidableEq

/-- The candidate sequence base, base_0, base_1, ... -/
def numberedName (base : String) : Nat → String
  | 0 => base
  | k + 1 => base ++ "_" ++ natStr k

def firstFresh (existing : List String) (base : String) : Nat → Nat → String
  | 0, k => numberedName base k
  | fuel + 1, k =>
    if numberedName base k ∈ existing then firstFresh existing base fuel (k + 1)
    else numberedName base k

def NameGen.next (g : NameGen) (base : String) : String × NameGen :=
  let n := firstFresh g.existing base (g.existing.length + 1) 0
  (n, { existing := n :: g.existing, generated := n :: g.generated })

def NameGen.addName (g : NameGen) (n : String) : Option NameGen :=
  if n ∈ g.existing then none else some { g with existing := n :: g.existing }

def NameGen.addNames (g : NameGen) (ns : List String) : Option NameGen :=
  ns.foldlM NameGen.addName g

theorem numberedName_inj (base : String) : Function.Injective (numberedName base) := by
  intro a b h
  match a, b with
  | 0, 0 => rfl
  | 0, k + 1 =>
    exfalso
    have hdata := congrArg String.data h
    simp only [numberedName, string_append_data] at hdata
    rw [List.append_assoc] at hdata
    have hlen := congrArg List.length hdata
    simp [List.length_append] at hlen
  | k + 1, 0 =>
    exfalso
    have hdata := congrArg String.data h
    simp only [numberedName, string_append_data] at hdata
    rw [List.append_assoc] at hdata
    have hlen := congrArg List.length hdata
    simp [List.length_append] at hlen
  | a + 1, b + 1 =>
    simp only [numberedName] at h
    have h2 : natStr a = natStr b := by
      have hassoc1 : base ++ "_" ++ natStr a = base ++ ("_" ++ natStr a) := by
        apply String.ext
        simp [string_append_data]
      have hassoc2 : base ++ "_" ++ natStr b = base ++ ("_" ++ natStr b) := by
        apply String.ext
        simp [string_append_data]
      rw [hassoc1, hassoc2] at h
      have h3 := string_append_right_inj h
      exact string_append_right_inj (a := "_") h3
    rw [natStr_inj h2]

theorem firstFresh_not_mem (existing : List String) (base : String) :
    ∀ (fuel k : Nat), (∃ j < fuel, numberedName base (k + j) ∉ existing) →
      firstFresh existing base fuel k ∉ existing := by
  intro fuel
  induction fuel with
  | zero =>
    intro k h
    obtain ⟨j, hj, _⟩ := h
    omega
  | succ fuel ih =>
    intro k h
    simp only [firstFresh]
    split
    · rename_i hmem
      apply ih
      obtain ⟨j, hj, hnot⟩ := h
      match j with
      | 0 => exact absurd hmem (by simpa using hnot)
      | j + 1 =>
        exact ⟨j, by omega, by
          have : k + 1 + j = k + (j + 1) := by omega
          rw [this]
          exact hnot⟩
    · rename_i hmem
      exact hmem

theorem exists_fresh_candidate (existing : List String) (base : String) (k : Nat) :
    ∃ j < existing.length + 1, numberedName base (k + j) ∉ existing := by
  by_contra hc
  push_neg at hc
  set L : List String :=
    (List.range (existing.length + 1)).map (fun j => numberedName base (k + j)) with hL
  have hnodup : L.Nodup := by
    refine List.Nodup.map ?_ (List.nodup_range _)
    intro a b hab
    have := numberedName_inj base hab
    omega
  have hsub : L ⊆ existing := by
    intro x hx
    rw [hL, List.mem_map] at hx
    obtain ⟨j, hj, rfl⟩ := hx
    rw [List.mem_range] at hj
    exact hc j hj
  have hlen : L.length ≤ existing.length := (List.subperm_of_subset hnodup hsub).length_le
  simp [hL] at hlen

/-- The essential contract of the unique name generator: the produced name
is not among the existing names, and it is recorded afterwards. -/
theorem NameGen.next_fresh (g : NameGen) (base : String) :
    (g.next base).1 ∉ g.existing ∧
      (g.next base).2.existing = (g.next base).1 :: g.existing ∧
      (g.next base).2.generated = (g.next base).1 :: g.generated := by
  refine ⟨?_, rfl, rfl⟩
  exact firstFresh_not_mem g.existing base (g.existing.length + 1) 0
    (exists_fresh_candidate g.existing base 0)

/-! ## Array expression nodes seen by the code generator

The node kinds codegen.py has lowering rules for.  Shapes are tuples of
scalar expressions (integer constants or quasi-affine expressions over size
parameters), as codegen.py consumes them (handle_array_input_argument maps
shape components through the scalar-expression mapper, domain_for_shape
takes their free variables).  pytato/array.py itself is not part of the
sources; node attributes (shape, dtype) are modelled from the spec's data
model, section 3. -/

/-- Python list.insert(pos, x): clamps the position to the length. -/
def pyInsert {α : Type} (pos : Nat) (x : α) (l : List α) : List α :=
  if pos ≥ l.length then l ++ [x] else l.insertIdx pos x

inductive AExpr where
  | placeholder (name : String) (shape : List ScalarExpr) (dtype : String)
  | dataWrapper (name : String) (data : Nat) (shape : List ScalarExpr) (dtype : String)
  | sizeParam (name : String) (dtype : String)
  | indexLambda (e : ScalarExpr) (shape : List ScalarExpr) (dtype : String)
      (bindings : List (String × AExpr))
  | matrixProduct (x1 x2 : AExpr)
  | stack (arrays : List AExpr) (axis : Nat)
  | roll (array : AExpr) (shift : Int) (axis : Nat)
  | axisPermutation (array : AExpr) (axes : List Nat)
  | slice (array : AExpr) (begins : List Int) (stops : List Int)

namespace AExpr

mutual

def beqA : AExpr → AExpr → Bool
  | .placeholder n1 s1 d1, .placeholder n2 s2 d2 => n1 == n2 && s1 == s2 && d1 == d2
  | .dataWrapper n1 a1 s1 d1, .dataWrapper n2 a2 s2 d2 =>
    n1 == n2 && a1 == a2 && s1 == s2 && d1 == d2
  | .sizeParam n1 d1, .sizeParam n2 d2 => n1 == n2 && d1 == d2
  | .indexLambda e1 s1 d1 b1, .indexLambda e2 s2 d2 b2 =>
    e1 == e2 && s1 == s2 && d1 == d2 && beqBindings b1 b2
  | .matrixProduct a1 a2, .matrixProduct b1 b2 => beqA a1 b1 && beqA a2 b2
  | .stack as1 ax1, .stack as2 ax2 => beqListA as1 as2 && ax1 == ax2
  | .roll a1 s1 x1, .roll a2 s2 x2 => beqA a1 a2 && s1 == s2 && x1 == x2
  | .axisPermutation a1 x1, .axisPermutation a2 x2 => beqA a1 a2 && x1 == x2
  | .slice a1 b1 e1, .slice a2 b2 e2 => beqA a1 a2 && b1 == b2 && e1 == e2
  | _, _ => false

def beqListA : List AExpr → List AExpr → Bool
  | [], [] => true
  | x :: xs, y :: ys => beqA x y && beqListA xs ys
  | _, _ => false

def beqBindings : List (String × AExpr) → List (String × AExpr) → Bool
  | [], [] => true
  | (k1, v1) :: xs, (k2, v2) :: ys => k1 == k2 && beqA v1 v2 && beqBindings xs ys
  | _, _ => false

end

mutual

theorem beqA_iff : ∀ (a b : AExpr), beqA a b = true ↔ a = b
  | .placeholder n1 s1 d1, b => by cases b <;> simp [beqA, and_assoc]
  | .dataWrapper n1 a1 s1 d1, b => by cases b <;> simp [beqA, and_assoc]
  | .sizeParam n1 d1, b => by cases b <;> simp [beqA, and_assoc]
  | .indexLambda e1 s1 d1 b1, b => by
    cases b <;> simp [beqA, and_assoc]
    rename_i e2 s2 d2 b2
    intro _ _ _
    exact beqBindings_iff b1 b2
  | .matrixProduct a1 a2, b => by
    cases b <;> simp [beqA]
    rename_i b1 b2
    rw [beqA_iff a1 b1, beqA_iff a2 b2]
  | .stack as1 ax1, b => by
    cases b <;> simp [beqA]
    rename_i as2 ax2
    rw [beqListA_iff as1 as2]
    tauto
  | .roll a1 s1 x1, b => by
    cases b <;> simp [beqA, and_assoc]
    rename_i a2 s2 x2
    rw [beqA_iff a1 a2]
    tauto
  | .axisPermutation a1 x1, b => by
    cases b <;> simp [beqA]
    rename_i a2 x2
    rw [beqA_iff a1 a2]
    tauto
  | .slice a1 b1 e1, b => by
    cases b <;> simp [beqA, and_assoc]
    rename_i a2 b2 e2
    rw [beqA_iff a1 a2]
    tauto

theorem beqListA_iff : ∀ (as bs : List AExpr), beqListA as bs = true ↔ as = bs
  | [], bs => by cases bs <;> simp [beqListA]
  | a :: as, bs => by
    cases bs <;> simp [beqListA]
    rename_i b bs'
    rw [beqA_iff a b, beqListA_iff as bs']

theorem beqBindings_iff :
    ∀ (as bs : List (String × AExpr)), beqBindings as bs = true ↔ as = bs
  | [], bs => by cases bs <;> simp [beqBindings]
  | (k, v) :: as, bs => by
    cases bs <;> simp [beqBindings]
    rename_i kv bs'
    obtain ⟨k', v'⟩ := kv
    rw [beqA_iff v v', beqBindings_iff as bs']
    simp [Prod.ext_iff, and_assoc]

end

instance : DecidableEq AExpr := fun a b => decidable_of_iff _ (beqA_iff a b)

/-- Modelled from the spec (section 3): the shape attribute of each node
kind, as computed by the external pytato/array.py.  MatrixProduct
contracts the left operand's trailing axis with the right operand's
leading axis; Stack inserts a new axis of extent len(arrays). -/
def shape : AExpr → List ScalarExpr
  | .placeholder _ sh _ => sh
  | .dataWrapper _ _ sh _ => sh
  | .sizeParam _ _ => []
  | .indexLambda _ sh _ _ => sh
  | .matrixProduct x1 x2 => x1.shape.dropLast ++ x2.shape.tail
  | .stack arrays axis =>
    match arrays with
    | [] => []
    | a :: _ => pyInsert axis (.const arrays.length) a.shape
  | .roll a _ _ => a.shape
  | .axisPermutation a axes => axes.map (fun i => (a.shape).getD i (.const 0))
  | .slice a begins stops => List.zipWith (fun st sp => .const (sp - st)) begins stops

/-- Modelled from the spec (section 3): the element type attribute. -/
def dtype : AExpr → String
  | .placeholder _ _ dt => dt
  | .dataWrapper _ _ _ dt => dt
  | .sizeParam _ dt => dt
  | .indexLambda _ _ dt _ => dt
  | .matrixProduct x1 _ => x1.dtype
  | .stack arrays _ =>
    match arrays with
    | [] => ""
    | a :: _ => a.dtype
  | .roll a _ _ => a.dtype
  | .axisPermutation a _ => a.dtype
  | .slice a _ _ => a.dtype

/-- Number of axes. -/
def ndim (a : AExpr) : Nat := a.shape.length

/-- Whether the node is an InputArgumentBase (Placeholder, DataWrapper,
SizeParam). -/
def isInputArg : AExpr → Bool
  | .placeholder .. => true
  | .dataWrapper .. => true
  | .sizeParam .. => true
  | _ => false

/-- The name attribute of an input argument node. -/
def argName : AExpr → String
  | .placeholder n _ _ => n
  | .dataWrapper n _ _ _ => n
  | .sizeParam n _ => n
  | _ => ""

end AExpr

/-! ## Union of dependency sets (frozenset union, observed via membership) -/

def unionS (a b : List String) : List String :=
  a ++ b.filter (fun x => !(decide (x ∈ a)))

theorem mem_unionS {x : String} {a b : List String} :
    x ∈ unionS a b ↔ x ∈ a ∨ x ∈ b := by
  simp only [unionS, List.mem_append, List.mem_filter, Bool.not_eq_true',
    decide_eq_false_iff_not]
  tauto

/-! ## The loopy kernel value (external sink, modelled by its appends) -/

inductive KernelArg where
  | valueArg (name : String) (dtype : String)
  | globalArg (name : String) (shape : List ScalarExpr) (dtype : String)
      (isOutputOnly : Bool)
deriving DecidableEq

def KernelArg.name : KernelArg → String
  | .valueArg n _ => n
  | .globalArg n _ _ _ => n

structure TempVar where
  name : String
  dtype : String
  shape : List ScalarExpr
  addressSpaceGlobal : Bool
deriving DecidableEq

/-- An isl BasicSet as built by domain_for_shape: its set dimensions, its
parameter dimensions, and its conjunction of half-open range constraints
lower <= dim < upper. -/
structure DomainSet where
  setDims : List String
  params : List String
  constraints : List (ScalarExpr × String × ScalarExpr)
deriving DecidableEq

structure Insn where
  id : String
  assignee : String
  assigneeIndices : List ScalarExpr
  rhs : ScalarExpr
  withinInames : List String
  dependsOn : List String
deriving DecidableEq

structure Kernel where
  args : List KernelArg
  temporaries : List (String × TempVar)
  domains : List DomainSet
  instructions : List Insn
deriving DecidableEq

/-! ## Expression contexts and implemented results (codegen.py) -/

/-- LoopyExpressionContext: the per-expression ephemeral context.  The
CodeGenState it wraps is threaded separately through all functions. -/
structure LECtx where
  dependsOn : List String := []
  localNs : List (String × AExpr) := []
  reductionBounds : List (String × ScalarExpr × ScalarExpr) := []
deriving DecidableEq

/-- ImplementedResult: the lowered form of a node, either StoredResult
(name + instruction-id dependencies) or InlinedResult (expression +
reduction bounds + dependencies). -/
inductive ImplementedResult where
  | stored (name : String) (dependsOn : List String)
  | inlined (expr : ScalarExpr)
      (reductionBounds : List (String × ScalarExpr × ScalarExpr))
      (dependsOn : List String)
deriving DecidableEq

/-- InlinedResult.from_loopy_expression. -/
def InlinedResult.fromLoopyExpression (e : ScalarExpr) (ctx : LECtx) :
    ImplementedResult :=
  .inlined e ctx.reductionBounds ctx.dependsOn

/-- The reduction-renaming loop of InlinedResult.to_loopy_expression: for
the i-th internal reduction (old_name, bounds), the fresh name is
_r(i + start); the Python assert that the fresh name is not already in the
context's reduction-bound map is modelled as failure (none). -/
def inlinedSubstLoop (start : Nat) :
    List (String × ScalarExpr × ScalarExpr) → Nat →
    List (String × ScalarExpr) → List (String × ScalarExpr × ScalarExpr) →
    Option (List (String × ScalarExpr) × List (String × ScalarExpr × ScalarExpr))
  | [], _, subs, rb => some (subs, rb)
  | (oldName, bounds) :: rest, i, subs, rb =>
    let newName := "_r" ++ natStr (i + start)
    if newName ∈ keysA rb then none
    else inlinedSubstLoop start rest (i + 1)
        (setA subs oldName (.varb newName)) (rb ++ [(newName, bounds)])

/-- ImplementedResult.to_loopy_expression.  StoredResult records its
dependencies into the context and returns the (possibly unindexed) buffer
reference; InlinedResult substitutes the positional placeholders _d with
the caller's indices, renames its internal reductions disjointly from the
context's, and merges bounds and dependencies into the context. -/
def ImplementedResult.toLoopyExpression :
    ImplementedResult → List ScalarExpr → LECtx → Option (ScalarExpr × LECtx)
  | .stored name dep, indices, ctx =>
    some (if indices = [] then .varb name else .subscript name indices,
      { ctx with dependsOn := unionS ctx.dependsOn dep })
  | .inlined e rb dep, indices, ctx => do
    let subs0 := indices.enum.map (fun di => ("_" ++ natStr di.1, di.2))
    let (subs, rb') ← inlinedSubstLoop ctx.reductionBounds.length rb 0 subs0
        ctx.reductionBounds
    some (ScalarExpr.subst subs e,
      { ctx with dependsOn := unionS ctx.dependsOn dep, reductionBounds := rb' })

/-! ## Code generation state -/

/-- CodeGenState: the per-lowering-call mutable state.  The `cnt` field is
the instrumentation called for by the spec's testable properties: the list
of nodes whose lowering-rule body has been entered (most recent first). -/
structure CGState where
  ns : List (String × AExpr)
  kernel : Kernel
  results : List (AExpr × ImplementedResult)
  varNameGen : NameGen
  insnIdGen : NameGen
  cnt : List AExpr
deriving DecidableEq

/-- LoopyExpressionContext.lookup: the local namespace shadows the global
one. -/
def ctxLookup (ctx : LECtx) (s : CGState) (name : String) : Option AExpr :=
  match lookupA ctx.localNs name with
  | some a => some a
  | none => lookupA s.ns name

/-! ## Pure utilities of codegen.py -/

/-- domain_for_shape: one set dimension per axis name and per reduction
iname, constrained 0 <= axis < shape[axis] and lower <= red < upper; the
free variables of the shape and of the reduction bounds become parameter
dimensions.  The Python assert len(dim_names) == len(shape) is modelled as
failure. -/
def domainForShape (dimNames : List String) (shape : List ScalarExpr)
    (reductions : List (String × ScalarExpr × ScalarExpr)) : Option DomainSet :=
  if dimNames.length = shape.length then
    let paramList := (shape.map ScalarExpr.freeVars).flatten ++
      (reductions.map (fun r => r.2.1.freeVars ++ r.2.2.freeVars)).flatten
    some
      { setDims := sortStrings (dimNames ++ keysA reductions)
        params := sortStrings (dedupStrings paramList)
        constraints :=
          (List.zip dimNames shape).map (fun p => (ScalarExpr.const 0, p.1, p.2)) ++
            reductions.map (fun r => (r.2.1, r.1, r.2.2)) }
  else none

/-- get_loopy_temporary: only global variables can have symbolic shape. -/
def getLoopyTemporary (name : String) (e : AExpr) : TempVar :=
  { name := name
    dtype := e.dtype
    shape := e.shape
    addressSpaceGlobal :=
      !(e.shape.all (fun d => match d with | .const _ => true | _ => false)) }

/-- Sequential generation of several names from one generator. -/
def genNames (g : NameGen) (bases : List String) : List String × NameGen :=
  bases.foldl (fun acc b =>
    let (n, g') := acc.2.next b
    (acc.1 ++ [n], g')) ([], g)

/-- rename_reductions: generate a fresh name for every reduction iname of
the context (through the supplied base-name function), substitute them in
the expression, and rewrite the context's reduction-bound map. -/
def renameReductions (le : ScalarExpr) (ctx : LECtx) (g : NameGen)
    (basefn : String → String) : ScalarExpr × LECtx × NameGen :=
  let step := genNames g ((keysA ctx.reductionBounds).map basefn)
  let newNames := step.1
  let subs := List.zip (keysA ctx.reductionBounds) (newNames.map ScalarExpr.varb)
  let newBounds := List.zip newNames (ctx.reductionBounds.map (fun kv => kv.2))
  (ScalarExpr.subst subs le, { ctx with reductionBounds := newBounds }, step.2)

/-- add_store: allocate one fresh index variable per axis, lower the result
at those indices in a fresh context, rename the accumulated reductions to a
store-local scheme, emit one assignment instruction with the accumulated
dependencies and a domain from domain_for_shape, and register either a
temporary or an output argument. -/
def addStore (name : String) (e : AExpr) (r : ImplementedResult) (s : CGState)
    (outputToTemporary : Bool) : Option (String × CGState) := do
  let (inames, g1) := genNames s.varNameGen
    ((List.range e.ndim).map (fun d => name ++ "_dim" ++ natStr d))
  let indices := inames.map ScalarExpr.varb
  let (le, ctx1) ← r.toLoopyExpression indices {}
  let (le2, ctx2, g2) := renameReductions le ctx1 g1 (fun old => name ++ old)
  let (insnId, ig) := s.insnIdGen.next (name ++ "_store")
  let insn : Insn :=
    { id := insnId, assignee := name, assigneeIndices := indices, rhs := le2,
      withinInames := inames, dependsOn := ctx2.dependsOn }
  let domain ← domainForShape inames e.shape ctx2.reductionBounds
  let kernel := s.kernel
  let kernel' :=
    if outputToTemporary then
      { kernel with
          temporaries := setA kernel.temporaries name (getLoopyTemporary name e)
          domains := kernel.domains ++ [domain]
          instructions := kernel.instructions ++ [insn] }
    else
      { kernel with
          args := kernel.args ++ [.globalArg name e.shape e.dtype true]
          domains := kernel.domains ++ [domain]
          instructions := kernel.instructions ++ [insn] }
  some (insnId, { s with kernel := kernel', varNameGen := g2, insnIdGen := ig })

/-! ## The per-kind lowering rules (CodeGenMapper)

The recursion of CodeGenMapper and InlinedExpressionGenMapper over the DAG
is driven by an explicit fuel that decreases at every call; returning none
models either divergence (fuel exhausted), a failed Python assertion, a
KeyError on name lookup, or an unsupported scalar expression.  Every rule
of CodeGenMapper starts by consulting the memo state.results and ends by
writing its result into it; the memo gate, written once per map_ method in
the source, is factored in front of the kind dispatch here.  Entering a
rule body is recorded in the `cnt` instrumentation field. -/

def CGState.bump (s : CGState) (e : AExpr) : CGState := { s with cnt := e :: s.cnt }

def CGState.memoize (s : CGState) (e : AExpr) (r : ImplementedResult) : CGState :=
  { s with results := setA s.results e r }

/-- CodeGenMapper._indices_for_roll: subtract the shift and wrap modulo the
axis extent. -/
def indicesForRoll (e : AExpr) (shift : Int) (axis : Nat) : List ScalarExpr :=
  (List.range e.ndim).map (fun d =>
    if d = axis then
      .emod (.sub (.varb ("_" ++ natStr d)) (.const shift)) ((e.shape).getD axis (.const 0))
    else .varb ("_" ++ natStr d))

/-- CodeGenMapper._indices_for_axis_permutation: position `to` receives the
index variable of the source axis mapped onto it; if some position is never
assigned the Python code would leave a None in the tuple and fail
downstream, modelled as failure here. -/
def indicesForAxisPermutation (e : AExpr) (axes : List Nat) :
    Option (List ScalarExpr) :=
  (List.range e.ndim).mapM (fun t =>
    match axes.findIdx? (fun a => a = t) with
    | some src => some (ScalarExpr.varb ("_" ++ natStr src))
    | none => none)

/-- CodeGenMapper._indices_for_slice: add the per-axis offset. -/
def indicesForSlice (e : AExpr) (begins : List Int) : List ScalarExpr :=
  (List.range e.ndim).map (fun d =>
    .add (.varb ("_" ++ natStr d)) (.const (begins.getD d 0)))

mutual

/-- CodeGenMapper: the memo gate shared by every lowering rule (each map_
method in the source begins with it): a node already in state.results is
answered from the memo with the state untouched; otherwise the rule body
runs (recorded in cnt) and, per codegenBody, ends by writing its result. -/
def codegen : Nat → AExpr → CGState → Option (ImplementedResult × CGState)
  | 0, _, _ => none
  | fuel + 1, e, s =>
    match lookupA s.results e with
    | some r => some (r, s)
    | none => codegenBody fuel e (s.bump e)

/-- The per-kind lowering rule bodies of CodeGenMapper. -/
def codegenBody : Nat → AExpr → CGState → Option (ImplementedResult × CGState)
  | 0, _, _ => none
  | _ + 1, .sizeParam name dt, sb =>
    -- map_size_param: declare a ValueArg, return Stored
    let e := AExpr.sizeParam name dt
    let kernel := { sb.kernel with args := sb.kernel.args ++ [.valueArg name dt] }
    let s1 := { sb with kernel := kernel }
    let result := ImplementedResult.stored name []
    some (result, s1.memoize e result)
  | fuel + 1, .placeholder name sh dt, sb =>
    -- handle_array_input_argument: lower the shape components, assert they
    -- stay dependency- and reduction-free, declare a GlobalArg
    (do
      let e := AExpr.placeholder name sh dt
      let (shape2, _sctx, s1) ← shapeLoop fuel sh {} sb
      let kernel := { s1.kernel with
          args := s1.kernel.args ++ [.globalArg name shape2 dt false] }
      let s2 := { s1 with kernel := kernel }
      let result := ImplementedResult.stored name []
      some (result, s2.memoize e result))
  | fuel + 1, .dataWrapper name d sh dt, sb =>
    (do
      let e := AExpr.dataWrapper name d sh dt
      let (shape2, _sctx, s1) ← shapeLoop fuel sh {} sb
      let kernel := { s1.kernel with
          args := s1.kernel.args ++ [.globalArg name shape2 dt false] }
      let s2 := { s1 with kernel := kernel }
      let result := ImplementedResult.stored name []
      some (result, s2.memoize e result))
  | fuel + 1, .matrixProduct x1 x2, sb =>
    -- map_matrix_product
    (do
      let e := AExpr.matrixProduct x1 x2
      let (x1res, s1) ← codegen fuel x1 sb
      let (x2res, s2) ← codegen fuel x2 s1
      let extent ← (AExpr.shape x2).head?
      let ctx0 : LECtx := { reductionBounds := [("_r0", (.const 0, extent))] }
      let n1 := x1.ndim
      let x1inames := (List.range n1).map (fun i =>
        if i = n1 - 1 then ScalarExpr.varb "_r0"
        else ScalarExpr.varb ("_" ++ natStr i))
      let x2inames := (List.range x2.ndim).map (fun i =>
        if i = 0 then ScalarExpr.varb "_r0"
        else ScalarExpr.varb ("_" ++ intStr ((i : Int) + (n1 : Int) - 2)))
      let (e1, ctxA) ← x1res.toLoopyExpression x1inames ctx0
      let (e2, ctxB) ← x2res.toLoopyExpression x2inames ctxA
      let loopyExpr := ScalarExpr.reduction "sum" ["_r0"] (.mul e1 e2)
      let inlinedResult := InlinedResult.fromLoopyExpression loopyExpr ctxB
      let (outputName, g) := s2.varNameGen.next "matmul"
      let s3 := { s2 with varNameGen := g }
      let (insnId, s4) ← addStore outputName e inlinedResult s3 true
      let result := ImplementedResult.stored outputName [insnId]
      some (result, s4.memoize e result))
  | fuel + 1, .stack arrays axis, sb =>
    -- map_stack
    (do
      let e := AExpr.stack arrays axis
      let (outName, g0) := sb.varNameGen.next "stack"
      let (inames, g1) := genNames g0 ((List.range (e.ndim - 1)).map (fun j =>
        let j2 := if j ≥ axis then j + 1 else j
        outName ++ "_dim" ++ natStr j2))
      let s0 := { sb with varNameGen := g1 }
      let indices := inames.map ScalarExpr.varb
      let (rb, dep, insns, s1) ←
        stackLoop fuel outName indices inames axis arrays 0 [] [] [] s0
      let a0 ← arrays.head?
      let domain ← domainForShape inames a0.shape rb
      let kernel := { s1.kernel with
          domains := s1.kernel.domains ++ [domain]
          instructions := s1.kernel.instructions ++ insns
          temporaries := setA s1.kernel.temporaries outName
            (getLoopyTemporary outName e) }
      let s2 := { s1 with kernel := kernel }
      let result := ImplementedResult.stored outName dep
      some (result, s2.memoize e result))
  | fuel + 1, .roll array shift axis, sb =>
    -- handle_index_remapping with _indices_for_roll
    (do
      let e := AExpr.roll array shift axis
      let indices := indicesForRoll e shift axis
      let (childRes, s1) ← codegen fuel array sb
      let (le, ctx1) ← childRes.toLoopyExpression indices {}
      let result := InlinedResult.fromLoopyExpression le ctx1
      some (result, s1.memoize e result))
  | fuel + 1, .axisPermutation array axes, sb =>
    (do
      let e := AExpr.axisPermutation array axes
      let indices ← indicesForAxisPermutation e axes
      let (childRes, s1) ← codegen fuel array sb
      let (le, ctx1) ← childRes.toLoopyExpression indices {}
      let result := InlinedResult.fromLoopyExpression le ctx1
      some (result, s1.memoize e result))
  | fuel + 1, .slice array begins stops, sb =>
    (do
      let e := AExpr.slice array begins stops
      let indices := indicesForSlice e begins
      let (childRes, s1) ← codegen fuel array sb
      let (le, ctx1) ← childRes.toLoopyExpression indices {}
      let result := InlinedResult.fromLoopyExpression le ctx1
      some (result, s1.memoize e result))
  | fuel + 1, .indexLambda expr sh dt bindings, sb =>
    -- map_index_lambda: local namespace is exactly the node's bindings
    (do
      let e := AExpr.indexLambda expr sh dt bindings
      let ctx0 : LECtx := { localNs := bindings }
      let (le, ctx1, s1) ← exprgen fuel expr ctx0 sb
      let result := InlinedResult.fromLoopyExpression le ctx1
      some (result, s1.memoize e result))

/-- The per-constituent loop of map_stack. -/
def stackLoop : Nat → String → List ScalarExpr → List String → Nat →
    List AExpr → Nat →
    List (String × ScalarExpr × ScalarExpr) → List String → List Insn → CGState →
    Option (List (String × ScalarExpr × ScalarExpr) × List String × List Insn × CGState)
  | _, _, _, _, _, [], _, rb, dep, insns, s => some (rb, dep, insns, s)
  | 0, _, _, _, _, _ :: _, _, _, _, _, _ => none
  | fuel + 1, outName, indices, inames, axis, a :: rest, i, rb, dep, insns, s =>
    (do
      let (ares, s1) ← codegen fuel a s
      let (le, ctx1) ← ares.toLoopyExpression indices {}
      let (le2, ctx2, g2) := renameReductions le ctx1 s1.varNameGen
        (fun old => outName ++ old)
      let s2 := { s1 with varNameGen := g2 }
      let rb2 := updateA rb ctx2.reductionBounds
      let (insnId, ig) := s2.insnIdGen.next (outName ++ "_" ++ natStr i)
      let s3 := { s2 with insnIdGen := ig }
      let insn : Insn :=
        { id := insnId, assignee := outName
          assigneeIndices := pyInsert axis (ScalarExpr.const i) indices
          rhs := le2, withinInames := inames
          dependsOn := unionS ctx2.dependsOn dep }
      stackLoop fuel outName indices inames axis rest (i + 1) rb2 [insnId]
        (insns ++ [insn]) s3)

/-- InlinedExpressionGenMapper: the scalar-expression splice layer.  Bare
variables and subscript aggregates are resolved through the context's local
namespace, falling back to the global one, and re-enter CodeGenMapper;
subscript indices are passed through literally; arithmetic recurses
structurally; loopy Reduction nodes are unsupported (map_reduction is a
TODO in the source). -/
def exprgen : Nat → ScalarExpr → LECtx → CGState → Option (ScalarExpr × LECtx × CGState)
  | 0, _, _, _ => none
  | _ + 1, .const n, ctx, s => some (.const n, ctx, s)
  | fuel + 1, .varb name, ctx, s =>
    (do
      let a ← ctxLookup ctx s name
      let (r, s1) ← codegen fuel a s
      let (le, ctx1) ← r.toLoopyExpression [] ctx
      some (le, ctx1, s1))
  | fuel + 1, .subscript agg idx, ctx, s =>
    (do
      let a ← ctxLookup ctx s agg
      let (r, s1) ← codegen fuel a s
      let (le, ctx1) ← r.toLoopyExpression idx ctx
      some (le, ctx1, s1))
  | fuel + 1, .add a b, ctx, s =>
    (do
      let (ea, ctx1, s1) ← exprgen fuel a ctx s
      let (eb, ctx2, s2) ← exprgen fuel b ctx1 s1
      some (.add ea eb, ctx2, s2))
  | fuel + 1, .sub a b, ctx, s =>
    (do
      let (ea, ctx1, s1) ← exprgen fuel a ctx s
      let (eb, ctx2, s2) ← exprgen fuel b ctx1 s1
      some (.sub ea eb, ctx2, s2))
  | fuel + 1, .mul a b, ctx, s =>
    (do
      let (ea, ctx1, s1) ← exprgen fuel a ctx s
      let (eb, ctx2, s2) ← exprgen fuel b ctx1 s1
      some (.mul ea eb, ctx2, s2))
  | fuel + 1, .emod a b, ctx, s =>
    (do
      let (ea, ctx1, s1) ← exprgen fuel a ctx s
      let (eb, ctx2, s2) ← exprgen fuel b ctx1 s1
      some (.emod ea eb, ctx2, s2))
  | _ + 1, .reduction _ _ _, _, _ => none

/-- The shape-lowering loop of handle_array_input_argument, with its two
asserts: symbolic shapes must lower to expressions with no dependencies and
no reductions. -/
def shapeLoop : Nat → List ScalarExpr → LECtx → CGState →
    Option (List ScalarExpr × LECtx × CGState)
  | _, [], ctx, s => some ([], ctx, s)
  | 0, _ :: _, _, _ => none
  | fuel + 1, c :: rest, ctx, s =>
    (do
      let (e1, ctx1, s1) ← exprgen fuel c ctx s
      if ctx1.dependsOn = [] ∧ ctx1.reductionBounds = [] then
        (do
          let (es, ctx2, s2) ← shapeLoop fuel rest ctx1 s1
          some (e1 :: es, ctx2, s2))
      else none)

end

/-- Unfolding of the codegen gate at positive fuel. -/
theorem codegen_succ (fuel : Nat) (e : AExpr) (s : CGState) :
    codegen (fuel + 1) e s =
      (match lookupA s.results e with
       | some r => some (r, s)
       | none => codegenBody fuel e (s.bump e)) := rfl

/-! ## The code-generation entry point (generate_loopy) -/

def initialKernel : Kernel :=
  { args := [], temporaries := [], domains := [], instructions := [] }

/-- CodeGenState construction at the start of generate_loopy: the name
generators are seeded from the freshly made empty kernel. -/
def initState (ns : List (String × AExpr)) : CGState :=
  { ns := ns, kernel := initialKernel, results := []
    varNameGen := { existing := [], generated := [] }
    insnIdGen := { existing := [], generated := [] }
    cnt := [] }

/-- The reservation loop of generate_loopy: reserve the name attribute of
every InputArgumentBase in the namespace. -/
def reserveInputNames (g : NameGen) : List (String × AExpr) → Option NameGen
  | [] => some g
  | (_, v) :: rest =>
    if v.isInputArg then
      (do
        let g' ← g.addName v.argName
        reserveInputNames g' rest)
    else reserveInputNames g rest

/-- The namespace loop of generate_loopy: generate code for all graph
nodes bound in the namespace. -/
def lowerNamespace (fuel : Nat) : List (String × AExpr) → CGState → Option CGState
  | [], s => some s
  | (_, v) :: rest, s =>
    (do
      let (_, s1) ← codegen fuel v s
      lowerNamespace fuel rest s1)

/-- The output loop of generate_loopy: lower every named output and force
it to a stored output argument via add_store. -/
def storeOutputs (fuel : Nat) : List (String × AExpr) → CGState → Option CGState
  | [], s => some s
  | (name, expr) :: rest, s =>
    (do
      let (r, s1) ← codegen fuel expr s
      let (_, s2) ← addStore name expr r s1 false
      storeOutputs fuel rest s2)

/-- generate_loopy: assemble the state, reserve input-argument and output
names, run the rules over the namespace and the outputs, and collect the
bound data arguments. -/
def generateLoopy (fuel : Nat) (outputs : List (String × AExpr))
    (ns : List (String × AExpr)) : Option (Kernel × List (String × Nat)) := do
  let s0 := initState ns
  let g1 ← reserveInputNames s0.varNameGen ns
  let g2 ← g1.addNames (outputs.map Prod.fst)
  let s1 := { s0 with varNameGen := g2 }
  let s2 ← lowerNamespace fuel ns s1
  let s3 ← storeOutputs fuel outputs s2
  let boundArgs := ns.filterMap (fun kv =>
    match kv.2 with
    | .dataWrapper _ data _ _ => some (kv.1, data)
    | _ => none)
  some (s3.kernel, boundArgs)

end Pytato

namespace Pytato
section ScratchTests
def testP : AExpr := .placeholder "x" [.const 2, .const 2] "float64"
def testMM : AExpr := .matrixProduct testP testP
example : (codegen 10 testMM (initState [])).isSome = true := by decide
def scratchCnt (o : Option (ImplementedResult × CGState)) (m : AExpr) : Nat :=
  match o with
  | some (_, s') => s'.cnt.count m
  | none => 0
example : scratchCnt (codegen 10 testMM (initState [])) testP = 1 := by decide
example : (generateLoopy 10 [("out", testMM)] [("x", testP)]).isSome = true := by decide
end ScratchTests
end Pytato

namespace Pytato

/-! ## Array nodes seen by the transformation framework (transform.py)

transform.py predates codegen.py's view of shapes: its mappers treat a
shape tuple as a mixed list whose entries are either plain integers or
array nodes (`self.rec(s) if isinstance(s, Array) else s`).  A shape entry
that is a plain integer is embedded as the `dimConst` constructor, which is
not an array node: no mapper ever dispatches on it (reaching it through
`rec` would be a foreign-object error), and `isArrayNode` is the
`isinstance(s, Array)` test.  The kinds carry the attributes the three
mappers touch; `tags` stands for the node's tag set. -/

inductive TArr where
  | dimConst (n : Int)
  | placeholder (name : String) (shape : List TArr) (dtype : String) (tags : String)
  | indexLambda (e : ScalarExpr) (shape : List TArr) (dtype : String)
      (bindings : List (String × TArr)) (tags : String)
  | dataWrapper (name : String) (data : Nat) (shape : List TArr) (tags : String)
  | sizeParam (name : String) (tags : String)
  | matrixProduct (x1 x2 : TArr) (tags : String)
  | stack (arrays : List TArr) (axis : Nat) (tags : String)
  | roll (array : TArr) (shift : Int) (axis : Nat) (tags : String)
  | axisPermutation (array : TArr) (axes : List Nat) (tags : String)
  | slice (array : TArr) (starts stops : List Int) (tags : String)
  | reshape (array : TArr) (newshape : List Int) (tags : String)
  | concatenate (arrays : List TArr) (axis : Nat) (tags : String)
  | distributedSend (data : TArr)
  | distributedRecv (data : TArr)

namespace TArr

mutual

def beqT : TArr → TArr → Bool
  | .dimConst n1, .dimConst n2 => n1 == n2
  | .placeholder n1 s1 d1 t1, .placeholder n2 s2 d2 t2 =>
    n1 == n2 && beqListT s1 s2 && d1 == d2 && t1 == t2
  | .indexLambda e1 s1 d1 b1 t1, .indexLambda e2 s2 d2 b2 t2 =>
    e1 == e2 && beqListT s1 s2 && d1 == d2 && beqBindT b1 b2 && t1 == t2
  | .dataWrapper n1 a1 s1 t1, .dataWrapper n2 a2 s2 t2 =>
    n1 == n2 && a1 == a2 && beqListT s1 s2 && t1 == t2
  | .sizeParam n1 t1, .sizeParam n2 t2 => n1 == n2 && t1 == t2
  | .matrixProduct a1 a2 t1, .matrixProduct b1 b2 t2 =>
    beqT a1 b1 && beqT a2 b2 && t1 == t2
  | .stack as1 x1 t1, .stack as2 x2 t2 => beqListT as1 as2 && x1 == x2 && t1 == t2
  | .roll a1 s1 x1 t1, .roll a2 s2 x2 t2 =>
    beqT a1 a2 && s1 == s2 && x1 == x2 && t1 == t2
  | .axisPermutation a1 x1 t1, .axisPermutation a2 x2 t2 =>
    beqT a1 a2 && x1 == x2 && t1 == t2
  | .slice a1 b1 e1 t1, .slice a2 b2 e2 t2 =>
    beqT a1 a2 && b1 == b2 && e1 == e2 && t1 == t2
  | .reshape a1 n1 t1, .reshape a2 n2 t2 => beqT a1 a2 && n1 == n2 && t1 == t2
  | .concatenate as1 x1 t1, .concatenate as2 x2 t2 =>
    beqListT as1 as2 && x1 == x2 && t1 == t2
  | .distributedSend d1, .distributedSend d2 => beqT d1 d2
  | .distributedRecv d1, .distributedRecv d2 => beqT d1 d2
  | _, _ => false

def beqListT : List TArr → List TArr → Bool
  | [], [] => true
  | x :: xs, y :: ys => beqT x y && beqListT xs ys
  | _, _ => false

def beqBindT : List (String × TArr) → List (String × TArr) → Bool
  | [], [] => true
  | (k1, v1) :: xs, (k2, v2) :: ys => k1 == k2 && beqT v1 v2 && beqBindT xs ys
  | _, _ => false

end

mutual

theorem beqT_iff : ∀ (a b : TArr), beqT a b = true ↔ a = b
  | .dimConst n1, b => by cases b <;> simp [beqT, and_assoc]
  | .placeholder n1 s1 d1 t1, b => by
    cases b <;> simp [beqT, and_assoc]
    rename_i n2 s2 d2 t2
    intro _
    rw [beqListT_iff s1 s2]
    tauto
  | .indexLambda e1 s1 d1 b1 t1, b => by
    cases b <;> simp [beqT, and_assoc]
    rename_i e2 s2 d2 b2 t2
    intro _
    rw [beqListT_iff s1 s2, beqBindT_iff b1 b2]
  | .dataWrapper n1 a1 s1 t1, b => by
    cases b <;> simp [beqT, and_assoc]
    rename_i n2 a2 s2 t2
    intro _ _
    rw [beqListT_iff s1 s2]
    tauto
  | .sizeParam n1 t1, b => by cases b <;> simp [beqT, and_assoc]
  | .matrixProduct a1 a2 t1, b => by
    cases b <;> simp [beqT, and_assoc]
    rename_i b1 b2 t2
    rw [beqT_iff a1 b1, beqT_iff a2 b2]
  | .stack as1 x1 t1, b => by
    cases b <;> simp [beqT, and_assoc]
    rename_i as2 x2 t2
    rw [beqListT_iff as1 as2]
    tauto
  | .roll a1 s1 x1 t1, b => by
    cases b <;> simp [beqT, and_assoc]
    rename_i a2 s2 x2 t2
    rw [beqT_iff a1 a2]
    tauto
  | .axisPermutation a1 x1 t1, b => by
    cases b <;> simp [beqT, and_assoc]
    rename_i a2 x2 t2
    rw [beqT_iff a1 a2]
    tauto
  | .slice a1 b1 e1 t1, b => by
    cases b <;> simp [beqT, and_assoc]
    rename_i a2 b2 e2 t2
    rw [beqT_iff a1 a2]
    tauto
  | .reshape a1 n1 t1, b => by
    cases b <;> simp [beqT, and_assoc]
    rename_i a2 n2 t2
    rw [beqT_iff a1 a2]
    tauto
  | .concatenate as1 x1 t1, b => by
    cases b <;> simp [beqT, and_assoc]
    rename_i as2 x2 t2
    rw [beqListT_iff as1 as2]
    tauto
  | .distributedSend d1, b => by
    cases b <;> simp [beqT]
    rename_i d2
    rw [beqT_iff d1 d2]
  | .distributedRecv d1, b => by
    cases b <;> simp [beqT]
    rename_i d2
    rw [beqT_iff d1 d2]

theorem beqListT_iff : ∀ (as bs : List TArr), beqListT as bs = true ↔ as = bs
  | [], bs => by cases bs <;> simp [beqListT]
  | a :: as, bs => by
    cases bs <;> simp [beqListT]
    rename_i b bs2
    rw [beqT_iff a b, beqListT_iff as bs2]

theorem beqBindT_iff :
    ∀ (as bs : List (String × TArr)), beqBindT as bs = true ↔ as = bs
  | [], bs => by cases bs <;> simp [beqBindT]
  | (k, v) :: as, bs => by
    cases bs <;> simp [beqBindT]
    rename_i kv bs2
    obtain ⟨k2, v2⟩ := kv
    rw [beqT_iff v v2, beqBindT_iff as bs2]
    simp [Prod.ext_iff, and_assoc]

end

instance : DecidableEq TArr := fun a b => decidable_of_iff _ (beqT_iff a b)

/-- The isinstance(s, Array) test on a shape entry. -/
def isArrayNode : TArr → Bool
  | .dimConst _ => false
  | _ => true

end TArr

end Pytato

namespace Pytato

/-! ## CopyMapper (transform.py)

Deep copy with a cache keyed by the node (CopyMapper.rec checks the cache,
computes via the per-kind method, writes the cache).  Kinds without a map_
method (Reshape, Concatenate, DistributedRecv) fall into
handle_unsupported_array, an error, modelled as none; a non-node shape
entry reached through rec would be a foreign-object error.  Note that
map_distributed_send reconstructs DistributedSend(expr.data) without
recursing into the child. -/

mutual

def copyT : Nat → List (TArr × TArr) → TArr → Option (TArr × List (TArr × TArr))
  | 0, _, _ => none
  | fuel + 1, cache, e =>
    match lookupA cache e with
    | some r => some (r, cache)
    | none => copyBodyT fuel cache e

def copyBodyT : Nat → List (TArr × TArr) → TArr → Option (TArr × List (TArr × TArr))
  | 0, _, _ => none
  | fuel + 1, cache, .indexLambda ex sh dt bnd tg =>
    (do
      let e := TArr.indexLambda ex sh dt bnd tg
      let (bnd2, c1) ← copyBindT fuel cache bnd
      let (sh2, c2) ← copyShapeT fuel c1 sh
      let result := TArr.indexLambda ex sh2 dt bnd2 tg
      some (result, setA c2 e result))
  | fuel + 1, cache, .placeholder n sh dt tg =>
    (do
      let e := TArr.placeholder n sh dt tg
      let (sh2, c1) ← copyShapeT fuel cache sh
      let result := TArr.placeholder n sh2 dt tg
      some (result, setA c1 e result))
  | fuel + 1, cache, .matrixProduct x1 x2 tg =>
    (do
      let e := TArr.matrixProduct x1 x2 tg
      let (y1, c1) ← copyT fuel cache x1
      let (y2, c2) ← copyT fuel c1 x2
      let result := TArr.matrixProduct y1 y2 tg
      some (result, setA c2 e result))
  | fuel + 1, cache, .stack as ax tg =>
    (do
      let e := TArr.stack as ax tg
      let (as2, c1) ← copyListT fuel cache as
      let result := TArr.stack as2 ax tg
      some (result, setA c1 e result))
  | fuel + 1, cache, .roll a sh ax tg =>
    (do
      let e := TArr.roll a sh ax tg
      let (a2, c1) ← copyT fuel cache a
      let result := TArr.roll a2 sh ax tg
      some (result, setA c1 e result))
  | fuel + 1, cache, .axisPermutation a ax tg =>
    (do
      let e := TArr.axisPermutation a ax tg
      let (a2, c1) ← copyT fuel cache a
      let result := TArr.axisPermutation a2 ax tg
      some (result, setA c1 e result))
  | fuel + 1, cache, .slice a st sp tg =>
    (do
      let e := TArr.slice a st sp tg
      let (a2, c1) ← copyT fuel cache a
      let result := TArr.slice a2 st sp tg
      some (result, setA c1 e result))
  | fuel + 1, cache, .dataWrapper n d sh tg =>
    (do
      let e := TArr.dataWrapper n d sh tg
      let (sh2, c1) ← copyShapeT fuel cache sh
      let result := TArr.dataWrapper n d sh2 tg
      some (result, setA c1 e result))
  | _ + 1, cache, .sizeParam n tg =>
    let result := TArr.sizeParam n tg
    some (result, setA cache (TArr.sizeParam n tg) result)
  | _ + 1, cache, .distributedSend d =>
    let result := TArr.distributedSend d
    some (result, setA cache (TArr.distributedSend d) result)
  | _ + 1, _, .reshape _ _ _ => none
  | _ + 1, _, .concatenate _ _ _ => none
  | _ + 1, _, .distributedRecv _ => none
  | _ + 1, _, .dimConst _ => none

def copyListT : Nat → List (TArr × TArr) → List TArr →
    Option (List TArr × List (TArr × TArr))
  | _, cache, [] => some ([], cache)
  | 0, _, _ :: _ => none
  | fuel + 1, cache, a :: rest =>
    (do
      let (a2, c1) ← copyT fuel cache a
      let (rest2, c2) ← copyListT fuel c1 rest
      some (a2 :: rest2, c2))

def copyBindT : Nat → List (TArr × TArr) → List (String × TArr) →
    Option (List (String × TArr) × List (TArr × TArr))
  | _, cache, [] => some ([], cache)
  | 0, _, _ :: _ => none
  | fuel + 1, cache, (k, v) :: rest =>
    (do
      let (v2, c1) ← copyT fuel cache v
      let (rest2, c2) ← copyBindT fuel c1 rest
      some ((k, v2) :: rest2, c2))

def copyShapeT : Nat → List (TArr × TArr) → List TArr →
    Option (List TArr × List (TArr × TArr))
  | _, cache, [] => some ([], cache)
  | 0, _, _ :: _ => none
  | fuel + 1, cache, d :: rest =>
    if d.isArrayNode then
      (do
        let (d2, c1) ← copyT fuel cache d
        let (rest2, c2) ← copyShapeT fuel c1 rest
        some (d2 :: rest2, c2))
    else
      (do
        let (rest2, c2) ← copyShapeT fuel cache rest
        some (d :: rest2, c2))

end

/-- Unfolding of the CopyMapper.rec cache gate at positive fuel. -/
theorem copyT_succ (fuel : Nat) (cache : List (TArr × TArr)) (e : TArr) :
    copyT (fuel + 1) cache e =
      (match lookupA cache e with
       | some r => some (r, cache)
       | none => copyBodyT fuel cache e) := rfl

/-! ## DependencyMapper and WalkMapper (transform.py) -/

/-- The ordered children a traversal recurses into: for IndexLambda the
bindings then the array-valued shape entries, for the input kinds the
array-valued shape entries, the operands/constituents otherwise. -/
def walkChildren : TArr → List TArr
  | .indexLambda _ sh _ bnd _ => bnd.map Prod.snd ++ sh.filter TArr.isArrayNode
  | .placeholder _ sh _ _ => sh.filter TArr.isArrayNode
  | .dataWrapper _ _ sh _ => sh.filter TArr.isArrayNode
  | .sizeParam _ _ => []
  | .matrixProduct x1 x2 _ => [x1, x2]
  | .stack as _ _ => as
  | .concatenate as _ _ => as
  | .roll a _ _ _ => [a]
  | .axisPermutation a _ _ => [a]
  | .slice a _ _ _ => [a]
  | .reshape a _ _ => [a]
  | .distributedSend d => [d]
  | .distributedRecv d => [d]
  | .dimConst _ => []

/-- The kinds DependencyMapper has a map_ method for (DistributedSend/Recv
have none and fall into handle_unsupported_array). -/
def depsSupported : TArr → Bool
  | .distributedSend _ => false
  | .distributedRecv _ => false
  | .dimConst _ => false
  | _ => true

/-- frozenset union, observed through membership. -/
def unionT (a b : List TArr) : List TArr :=
  a ++ b.filter (fun x => !(decide (x ∈ a)))

theorem mem_unionT {x : TArr} {a b : List TArr} :
    x ∈ unionT a b ↔ x ∈ a ∨ x ∈ b := by
  simp only [unionT, List.mem_append, List.mem_filter, Bool.not_eq_true',
    decide_eq_false_iff_not]
  tauto

mutual

/-- DependencyMapper: the memo gate of its rec. -/
def depsT : Nat → List (TArr × List TArr) → TArr →
    Option (List TArr × List (TArr × List TArr))
  | 0, _, _ => none
  | fuel + 1, cache, e =>
    match lookupA cache e with
    | some r => some (r, cache)
    | none => depsBodyT fuel cache e

/-- DependencyMapper rule bodies: the set of nodes a node transitively
depends on, combined by union from the singleton of the node itself and
the children's sets. -/
def depsBodyT : Nat → List (TArr × List TArr) → TArr →
    Option (List TArr × List (TArr × List TArr))
  | 0, _, _ => none
  | fuel + 1, cache, e =>
    if depsSupported e then
      (do
        let (sets, c1) ← depsChildrenT fuel cache (walkChildren e)
        let result := sets.foldl unionT [e]
        some (result, setA c1 e result))
    else none

def depsChildrenT : Nat → List (TArr × List TArr) → List TArr →
    Option (List (List TArr) × List (TArr × List TArr))
  | _, cache, [] => some ([], cache)
  | 0, _, _ :: _ => none
  | fuel + 1, cache, c :: rest =>
    (do
      let (ds, c1) ← depsT fuel cache c
      let (rest2, c2) ← depsChildrenT fuel c1 rest
      some (ds :: rest2, c2))

end

/-- Unfolding of the DependencyMapper.rec cache gate at positive fuel. -/
theorem depsT_succ (fuel : Nat) (cache : List (TArr × List TArr)) (e : TArr) :
    depsT (fuel + 1) cache e =
      (match lookupA cache e with
       | some r => some (r, cache)
       | none => depsBodyT fuel cache e) := rfl

/-- The loop of get_dependencies: one shared DependencyMapper cache
threaded through all named outputs. -/
def getDepsLoop (fuel : Nat) : List (String × TArr) → List (String × List TArr) →
    List (TArr × List TArr) →
    Option (List (String × List TArr) × List (TArr × List TArr))
  | [], acc, cache => some (acc, cache)
  | kv :: rest, acc, cache =>
    (do
      let (ds, c1) ← depsT fuel cache kv.2
      getDepsLoop fuel rest (acc ++ [(kv.1, ds)]) c1)

/-- get_dependencies: the dependencies of each named array. -/
def getDependencies (fuel : Nat) (outputs : List (String × TArr)) :
    Option (List (String × List TArr)) :=
  (getDepsLoop fuel outputs [] []).map Prod.fst

/-- Events of a walk: the pre-order visit hook call and the post-order
post_visit hook call on a node. -/
inductive WEvent where
  | visitE (e : TArr)
  | postE (e : TArr)
deriving DecidableEq

mutual

/-- WalkMapper, instrumented by its trace of hook calls: visit is called
first; if it returns false neither the recursion into the children nor
post_visit happens; no memoization. -/
def walkT (v : TArr → Bool) : Nat → TArr → Option (List WEvent)
  | 0, _ => none
  | _ + 1, .dimConst _ => none
  | fuel + 1, e =>
    if v e then
      match walkListT v fuel (walkChildren e) with
      | some ts => some (.visitE e :: ts.flatten ++ [.postE e])
      | none => none
    else some [.visitE e]

def walkListT (v : TArr → Bool) : Nat → List TArr → Option (List (List WEvent))
  | _, [] => some []
  | 0, _ :: _ => none
  | fuel + 1, c :: rest =>
    (do
      let t ← walkT v fuel c
      let ts ← walkListT v fuel rest
      some (t :: ts))

end

end Pytato

namespace Pytato

/-! ## Claim C10: StoredResult.to_loopy_expression -/

/-- C10.  For every StoredResult and every expression context,
to_loopy_expression succeeds, mutates only the context's dependency
accumulator — adding exactly the result's own dependency set — and leaves
the reduction-bound map and the local namespace unchanged; it returns the
bare buffer variable when the index tuple is empty and the subscripted
buffer variable otherwise. -/
theorem stored_to_loopy_expression_frame (name : String) (dep : List String)
    (indices : List ScalarExpr) (ctx : LECtx) :
    ∃ ctx2 : LECtx,
      (ImplementedResult.stored name dep).toLoopyExpression indices ctx =
        some ((if indices = [] then ScalarExpr.varb name
               else ScalarExpr.subscript name indices), ctx2) ∧
      ctx2.reductionBounds = ctx.reductionBounds ∧
      ctx2.localNs = ctx.localNs ∧
      (∀ x, x ∈ ctx2.dependsOn ↔ x ∈ ctx.dependsOn ∨ x ∈ dep) := by
  refine ⟨{ ctx with dependsOn := unionS ctx.dependsOn dep }, rfl, rfl, rfl, ?_⟩
  intro x
  exact mem_unionS

/-! ## Claim C8: domain_for_shape -/

/-- C8.  domain_for_shape fails exactly when the axis-name count differs
from the shape length; otherwise it returns a domain whose set dimensions
are exactly the axis names together with the reduction inames, whose
constraints are 0 <= axis < shape[axis] for each zipped axis and
lower <= red < upper for each reduction, and whose parameter dimensions
are exactly the free symbolic variables occurring in the shape or in a
reduction bound. -/
theorem domain_for_shape_spec (dimNames : List String) (shape : List ScalarExpr)
    (reductions : List (String × ScalarExpr × ScalarExpr)) :
    (domainForShape dimNames shape reductions = none ↔
      dimNames.length ≠ shape.length) ∧
    (∀ dom, domainForShape dimNames shape reductions = some dom →
      dom.setDims.Perm (dimNames ++ keysA reductions) ∧
      dom.constraints =
        (List.zip dimNames shape).map (fun p => (ScalarExpr.const 0, p.1, p.2)) ++
          reductions.map (fun r => (r.2.1, r.1, r.2.2)) ∧
      (∀ v, v ∈ dom.params ↔
        ((∃ d ∈ shape, v ∈ d.freeVars) ∨
         (∃ r ∈ reductions, v ∈ r.2.1.freeVars ∨ v ∈ r.2.2.freeVars)))) := by
  constructor
  · unfold domainForShape
    split
    · rename_i h
      simp [h]
    · rename_i h
      simp [h]
  · intro dom hdom
    unfold domainForShape at hdom
    split at hdom
    · rename_i hlen
      simp only [Option.some.injEq] at hdom
      subst hdom
      refine ⟨sortStrings_perm _, rfl, ?_⟩
      intro v
      rw [mem_sortStrings, mem_dedupStrings]
      simp only [List.mem_append, List.mem_flatten, List.mem_map]
      constructor
      · rintro (⟨l, ⟨d, hd, rfl⟩, hv⟩ | ⟨l, ⟨r, hr, rfl⟩, hv⟩)
        · exact Or.inl ⟨d, hd, hv⟩
        · rw [List.mem_append] at hv
          exact Or.inr ⟨r, hr, hv⟩
      · rintro (⟨d, hd, hv⟩ | ⟨r, hr, hv⟩)
        · exact Or.inl ⟨d.freeVars, ⟨d, hd, rfl⟩, hv⟩
        · exact Or.inr ⟨r.2.1.freeVars ++ r.2.2.freeVars, ⟨r, hr, rfl⟩,
            List.mem_append.mpr hv⟩
    · exact absurd hdom (by simp)

/-- Witness for C8 at a concrete instance: shape (5, n) with one reduction
over a symbolic bound; the length-mismatch direction at a mismatched
input. -/
theorem domain_for_shape_spec_witness :
    (domainForShape ["i", "j"] [.const 5, .varb "n"] [("r", (.const 0, .varb "m"))]
      ≠ none) ∧
    (domainForShape ["i"] [.const 5, .varb "n"] [] = none) ∧
    (∀ dom, domainForShape ["i", "j"] [.const 5, .varb "n"]
        [("r", (.const 0, .varb "m"))] = some dom →
      dom.setDims.Perm (["i", "j"] ++ keysA [("r", ((.const 0 : ScalarExpr), (.varb "m" : ScalarExpr)))]) ∧
      dom.constraints =
        (List.zip ["i", "j"] [ScalarExpr.const 5, ScalarExpr.varb "n"]).map
          (fun p => (ScalarExpr.const 0, p.1, p.2)) ++
          [(("r", ((ScalarExpr.const 0), (ScalarExpr.varb "m"))) : String × ScalarExpr × ScalarExpr)].map
            (fun r => (r.2.1, r.1, r.2.2)) ∧
      (∀ v, v ∈ dom.params ↔
        ((∃ d ∈ [ScalarExpr.const 5, ScalarExpr.varb "n"], v ∈ d.freeVars) ∨
         (∃ r ∈ [(("r", ((ScalarExpr.const 0), (ScalarExpr.varb "m"))) : String × ScalarExpr × ScalarExpr)],
            v ∈ r.2.1.freeVars ∨ v ∈ r.2.2.freeVars)))) := by
  refine ⟨?_, ?_, ?_⟩
  · have h := (domain_for_shape_spec ["i", "j"] [.const 5, .varb "n"]
      [("r", (.const 0, .varb "m"))]).1
    intro hc
    have := h.mp hc
    simp at this
  · exact (domain_for_shape_spec ["i"] [.const 5, .varb "n"] []).1.mpr (by simp)
  · exact (domain_for_shape_spec ["i", "j"] [.const 5, .varb "n"]
      [("r", (.const 0, .varb "m"))]).2

end Pytato

namespace Pytato

/-! ## Claim C7: WalkMapper -/

theorem walkT_head (v : TArr → Bool) (fuel : Nat) (e : TArr) (t : List WEvent)
    (h : walkT v fuel e = some t) : ∃ rest, t = WEvent.visitE e :: rest := by
  cases fuel with
  | zero => simp [walkT] at h
  | succ fuel =>
    cases e <;> simp only [walkT] at h
    case dimConst n => exact absurd h (by simp)
    all_goals {
      split at h
      · split at h
        · simp only [Option.some.injEq] at h
          exact ⟨_, h.symm⟩
        · exact absurd h (by simp)
      · simp only [Option.some.injEq] at h
        exact ⟨[], h.symm⟩
    }

mutual

theorem walkT_mono (v : TArr → Bool) :
    ∀ (fuel : Nat) (e : TArr) (t : List WEvent),
      walkT v fuel e = some t → walkT v (fuel + 1) e = some t
  | 0, e, t, h => by simp [walkT] at h
  | fuel + 1, e, t, h => by
    cases e <;> simp only [walkT] at h ⊢
    case dimConst n => exact absurd h (by simp)
    all_goals {
      split at h
      · rename_i heq
        rw [if_pos heq]
        split at h
        · rename_i ts hts
          rw [walkListT_mono v fuel _ ts hts]
          exact h
        · exact absurd h (by simp)
      · rename_i heq
        rw [if_neg heq]
        exact h
    }

theorem walkListT_mono (v : TArr → Bool) :
    ∀ (fuel : Nat) (es : List TArr) (ts : List (List WEvent)),
      walkListT v fuel es = some ts → walkListT v (fuel + 1) es = some ts
  | fuel, [], ts, h => by simpa [walkListT] using h
  | 0, c :: rest, ts, h => by simp [walkListT] at h
  | fuel + 1, c :: rest, ts, h => by
    simp only [walkListT] at h ⊢
    obtain ⟨t, ht, h2⟩ := Option.bind_eq_some.mp h
    obtain ⟨ts2, hts2, h3⟩ := Option.bind_eq_some.mp h2
    rw [walkT_mono v fuel c t ht, walkListT_mono v fuel rest ts2 hts2]
    simpa using h3

end

theorem matrixProduct_ne_child (x : TArr) (tg : String) :
    TArr.matrixProduct x x tg ≠ x := by
  intro h
  have hs := congrArg sizeOf h
  simp only [TArr.matrixProduct.sizeOf_spec] at hs
  have hx : 0 < sizeOf x := by cases x <;> simp_arith
  omega

/-- C7.  (i) If visit returns false on a node, the walk of that node is the
single visit call: no recursion into the children, no post_visit call.
(ii) In a three-constituent Stack whose middle constituent is pruned by
visit, the walk is the visit call on the stack, the full standalone traces
of the first and last constituents around the pruned constituent's lone
visit event, and the post_visit call on the stack: siblings of a pruned
node are walked in full.  (iii) The walk is not memoized: for a
MatrixProduct with the same node x as both operands, x's standalone trace
appears twice in the walk, its visit event is counted exactly twice as
often as in a standalone walk of x, and at least once there. -/
theorem walk_prune_siblings_no_memo (v : TArr → Bool) (fuel : Nat) :
    (∀ e : TArr, e.isArrayNode = true → v e = false →
      walkT v (fuel + 1) e = some [WEvent.visitE e]) ∧
    (∀ (a b c : TArr) (ax : Nat) (tg : String) (ta tc : List WEvent),
      v (.stack [a, b, c] ax tg) = true →
      b.isArrayNode = true → v b = false →
      walkT v (fuel + 2) a = some ta →
      walkT v fuel c = some tc →
      walkT v (fuel + 4) (.stack [a, b, c] ax tg) =
        some (WEvent.visitE (.stack [a, b, c] ax tg) ::
          (ta ++ (WEvent.visitE b :: tc)) ++
          [WEvent.postE (.stack [a, b, c] ax tg)])) ∧
    (∀ (x : TArr) (tg : String) (tx : List WEvent),
      v (.matrixProduct x x tg) = true →
      walkT v fuel x = some tx →
      walkT v (fuel + 3) (.matrixProduct x x tg) =
        some (WEvent.visitE (.matrixProduct x x tg) :: (tx ++ tx) ++
          [WEvent.postE (.matrixProduct x x tg)]) ∧
      (WEvent.visitE (.matrixProduct x x tg) :: (tx ++ tx) ++
          [WEvent.postE (.matrixProduct x x tg)]).count (WEvent.visitE x) =
        2 * tx.count (WEvent.visitE x) ∧
      1 ≤ tx.count (WEvent.visitE x)) := by
  have hprune : ∀ (f : Nat) (e : TArr), e.isArrayNode = true → v e = false →
      walkT v (f + 1) e = some [WEvent.visitE e] := by
    intro f e he hv
    cases e <;> simp_all [walkT, TArr.isArrayNode]
  refine ⟨hprune fuel, ?_, ?_⟩
  · intro a b c ax tg ta tc hv hb hvb hta htc
    have htb : walkT v (fuel + 1) b = some [WEvent.visitE b] := hprune fuel b hb hvb
    have hl : walkListT v (fuel + 3) [a, b, c] =
        some [ta, [WEvent.visitE b], tc] := by
      simp only [walkListT]
      rw [hta, htb, htc]
      simp
    simp only [walkT, hv, if_true, walkChildren]
    rw [hl]
    simp
  · intro x tg tx hv hx
    have hne := matrixProduct_ne_child x tg
    obtain ⟨rest, hrest⟩ := walkT_head v fuel x tx hx
    have hx1 : walkT v (fuel + 1) x = some tx := walkT_mono v fuel x tx hx
    have hl : walkListT v (fuel + 2) [x, x] = some [tx, tx] := by
      simp only [walkListT]
      rw [hx1, hx]
      simp
    refine ⟨?_, ?_, ?_⟩
    · simp only [walkT, hv, if_true, walkChildren]
      rw [hl]
      simp
    · have h1 : (WEvent.visitE (TArr.matrixProduct x x tg)) ≠ WEvent.visitE x := by
        simp [hne]
      have h2 : (WEvent.postE (TArr.matrixProduct x x tg)) ≠ WEvent.visitE x := by
        simp
      simp [List.count_cons, List.count_append, h1, h2]
      ring
    · rw [hrest]
      simp [List.count_cons]

/-- Witness for C7: a three-constituent stack with the middle constituent
pruned, and a matrix product of a shared node. -/
theorem walk_prune_siblings_no_memo_witness :
    (walkT (fun e => decide (e ≠ .sizeParam "b" "")) 3 (.sizeParam "b" "") =
      some [WEvent.visitE (.sizeParam "b" "")]) ∧
    (walkT (fun e => decide (e ≠ .sizeParam "b" "")) 5
        (.stack [.sizeParam "a" "", .sizeParam "b" "", .sizeParam "c" ""] 0 "") =
      some [WEvent.visitE (.stack [.sizeParam "a" "", .sizeParam "b" "", .sizeParam "c" ""] 0 ""),
            WEvent.visitE (.sizeParam "a" ""), WEvent.postE (.sizeParam "a" ""),
            WEvent.visitE (.sizeParam "b" ""),
            WEvent.visitE (.sizeParam "c" ""), WEvent.postE (.sizeParam "c" ""),
            WEvent.postE (.stack [.sizeParam "a" "", .sizeParam "b" "", .sizeParam "c" ""] 0 "")]) ∧
    (walkT (fun _ => true) 4 (.matrixProduct (.sizeParam "x" "") (.sizeParam "x" "") "") =
      some [WEvent.visitE (.matrixProduct (.sizeParam "x" "") (.sizeParam "x" "") ""),
            WEvent.visitE (.sizeParam "x" ""), WEvent.postE (.sizeParam "x" ""),
            WEvent.visitE (.sizeParam "x" ""), WEvent.postE (.sizeParam "x" ""),
            WEvent.postE (.matrixProduct (.sizeParam "x" "") (.sizeParam "x" "") "")]) := by
  refine ⟨?_, ?_, ?_⟩
  · exact (walk_prune_siblings_no_memo (fun e => decide (e ≠ .sizeParam "b" "")) 2).1
      (.sizeParam "b" "") (by decide) (by decide)
  · have h := (walk_prune_siblings_no_memo (fun e => decide (e ≠ .sizeParam "b" "")) 1).2.1
      (.sizeParam "a" "") (.sizeParam "b" "") (.sizeParam "c" "") 0 ""
      [WEvent.visitE (.sizeParam "a" ""), WEvent.postE (.sizeParam "a" "")]
      [WEvent.visitE (.sizeParam "c" ""), WEvent.postE (.sizeParam "c" "")]
      (by decide) (by decide) (by decide) (by decide) (by decide)
    rw [h]
    simp
  · have h := ((walk_prune_siblings_no_memo (fun _ => true) 1).2.2
      (.sizeParam "x" "") ""
      [WEvent.visitE (.sizeParam "x" ""), WEvent.postE (.sizeParam "x" "")]
      (by decide) (by decide)).1
    rw [h]
    simp

end Pytato

namespace Pytato

/-! ## Claim C5: CopyMapper -/

mutual

/-- The nodes CopyMapper can actually traverse: Reshape, Concatenate and
DistributedRecv have no map_ method (handle_unsupported_array), and a
non-node shape entry reached as an operand would be foreign.  The child of
a DistributedSend is not traversed by map_distributed_send, so it is
unconstrained. -/
def copySupported : TArr → Bool
  | .dimConst _ => false
  | .placeholder _ sh _ _ => copyShapeSupported sh
  | .indexLambda _ sh _ bnd _ => copyShapeSupported sh && copyBindSupported bnd
  | .dataWrapper _ _ sh _ => copyShapeSupported sh
  | .sizeParam _ _ => true
  | .matrixProduct a b _ => copySupported a && copySupported b
  | .stack as _ _ => copyListSupported as
  | .roll a _ _ _ => copySupported a
  | .axisPermutation a _ _ => copySupported a
  | .slice a _ _ _ => copySupported a
  | .reshape _ _ _ => false
  | .concatenate _ _ _ => false
  | .distributedSend _ => true
  | .distributedRecv _ => false

def copyListSupported : List TArr → Bool
  | [] => true
  | a :: as => copySupported a && copyListSupported as

def copyBindSupported : List (String × TArr) → Bool
  | [] => true
  | (_, v) :: rest => copySupported v && copyBindSupported rest

def copyShapeSupported : List TArr → Bool
  | [] => true
  | d :: ds => (if d.isArrayNode then copySupported d else true) && copyShapeSupported ds

end

/-- The cache of a pure deep copy maps every key to itself. -/
def CacheId (cache : List (TArr × TArr)) : Prop := ∀ kv ∈ cache, kv.2 = kv.1

theorem lookupA_mem {α β : Type} [DecidableEq α] {d : List (α × β)} {k : α} {v : β}
    (h : lookupA d k = some v) : (k, v) ∈ d := by
  induction d with
  | nil => simp [lookupA] at h
  | cons kv rest ih =>
    obtain ⟨k0, v0⟩ := kv
    simp only [lookupA] at h
    split at h
    · rename_i heq
      simp only [Option.some.injEq] at h
      subst heq
      subst h
      exact List.mem_cons_self _ _
    · exact List.mem_cons_of_mem _ (ih h)

theorem lookupA_setA_self {α β : Type} [DecidableEq α] (d : List (α × β)) (k : α) (v : β) :
    lookupA (setA d k v) k = some v := by
  induction d with
  | nil => simp [setA, lookupA]
  | cons kv rest ih =>
    obtain ⟨k0, v0⟩ := kv
    simp only [setA]
    split
    · rename_i heq
      simp [lookupA]
    · rename_i heq
      simp only [lookupA]
      rw [if_neg heq]
      exact ih

theorem CacheId_setA_self {cache : List (TArr × TArr)} (hc : CacheId cache) (k : TArr) :
    CacheId (setA cache k k) := by
  induction cache with
  | nil =>
    intro kv hkv
    simp [setA] at hkv
    simp [hkv]
  | cons kv0 rest ih =>
    obtain ⟨k0, v0⟩ := kv0
    have hrest : CacheId rest := fun kv hkv => hc kv (List.mem_cons_of_mem _ hkv)
    have hhead : v0 = k0 := hc (k0, v0) (List.mem_cons_self _ _)
    intro kv hkv
    simp only [setA] at hkv
    split at hkv
    · rcases List.mem_cons.mp hkv with h | h
      · simp [h]
      · exact hc kv (List.mem_cons_of_mem _ h)
    · rcases List.mem_cons.mp hkv with h | h
      · subst h
        simpa using hhead
      · exact ih hrest kv h

theorem copyT_identity_all : ∀ fuel : Nat,
    (∀ cache e r c', CacheId cache → copySupported e = true →
      copyT fuel cache e = some (r, c') → r = e ∧ CacheId c' ∧ e ∈ keysA c') ∧
    (∀ cache es rs c', CacheId cache → copyListSupported es = true →
      copyListT fuel cache es = some (rs, c') → rs = es ∧ CacheId c') ∧
    (∀ cache bs rs c', CacheId cache → copyBindSupported bs = true →
      copyBindT fuel cache bs = some (rs, c') → rs = bs ∧ CacheId c') ∧
    (∀ cache ds rs c', CacheId cache → copyShapeSupported ds = true →
      copyShapeT fuel cache ds = some (rs, c') → rs = ds ∧ CacheId c') := by
  intro fuel
  induction fuel using Nat.strong_induction_on with
  | _ fuel ih =>
    refine ⟨?_, ?_, ?_, ?_⟩
    · intro cache e r c' hc hsup h
      match fuel, h with
      | fuel + 1, h =>
      rw [copyT_succ] at h
      cases hl : lookupA cache e with
      | some r0 =>
        rw [hl] at h
        simp only [Option.some.injEq, Prod.mk.injEq] at h
        obtain ⟨h1, h2⟩ := h
        have hr0 : r0 = e := hc (e, r0) (lookupA_mem hl)
        subst h2
        refine ⟨by rw [← h1, hr0], hc, ?_⟩
        have hx : (lookupA cache e).isSome := by rw [hl]; rfl
        exact (lookupA_isSome_iff_mem_keys cache e).mp hx
      | none =>
        rw [hl] at h
        match fuel, h with
        | fuel + 1, h =>
        have ihA := (ih fuel (by omega)).1
        have ihL := (ih fuel (by omega)).2.1
        have ihB := (ih fuel (by omega)).2.2.1
        have ihS := (ih fuel (by omega)).2.2.2
        cases e with
        | dimConst n => simp [copySupported] at hsup
        | reshape a ns tg => simp [copySupported] at hsup
        | concatenate as ax tg => simp [copySupported] at hsup
        | distributedRecv d => simp [copySupported] at hsup
        | sizeParam n tg =>
          simp only [copyBodyT, Option.some.injEq, Prod.mk.injEq] at h
          obtain ⟨h1, h2⟩ := h
          subst h1
          subst h2
          exact ⟨rfl, CacheId_setA_self hc _, by
            rw [keysA_setA]
            split
            · assumption
            · simp⟩
        | distributedSend d =>
          simp only [copyBodyT, Option.some.injEq, Prod.mk.injEq] at h
          obtain ⟨h1, h2⟩ := h
          subst h1
          subst h2
          exact ⟨rfl, CacheId_setA_self hc _, by
            rw [keysA_setA]
            split
            · assumption
            · simp⟩
        | placeholder n sh dt tg =>
          simp only [copySupported] at hsup
          simp only [copyBodyT] at h
          obtain ⟨⟨sh2, c1⟩, h1, h⟩ := Option.bind_eq_some.mp h
          simp only [Option.some.injEq, Prod.mk.injEq] at h
          obtain ⟨hr, hc'⟩ := h
          obtain ⟨hsh, hc1⟩ := ihS cache sh sh2 c1 hc hsup h1
          subst hsh
          subst hc'
          subst hr
          exact ⟨rfl, CacheId_setA_self hc1 _, by
            rw [keysA_setA]
            split
            · assumption
            · simp⟩
        | dataWrapper n d sh tg =>
          simp only [copySupported] at hsup
          simp only [copyBodyT] at h
          obtain ⟨⟨sh2, c1⟩, h1, h⟩ := Option.bind_eq_some.mp h
          simp only [Option.some.injEq, Prod.mk.injEq] at h
          obtain ⟨hr, hc'⟩ := h
          obtain ⟨hsh, hc1⟩ := ihS cache sh sh2 c1 hc hsup h1
          subst hsh
          subst hc'
          subst hr
          exact ⟨rfl, CacheId_setA_self hc1 _, by
            rw [keysA_setA]
            split
            · assumption
            · simp⟩
        | indexLambda ex sh dt bnd tg =>
          simp only [copySupported, Bool.and_eq_true] at hsup
          obtain ⟨hsupS, hsupB⟩ := hsup
          simp only [copyBodyT] at h
          obtain ⟨⟨bnd2, c1⟩, h1, h⟩ := Option.bind_eq_some.mp h
          obtain ⟨⟨sh2, c2⟩, h2, h⟩ := Option.bind_eq_some.mp h
          simp only [Option.some.injEq, Prod.mk.injEq] at h
          obtain ⟨hr, hc'⟩ := h
          obtain ⟨hbnd, hc1⟩ := ihB cache bnd bnd2 c1 hc hsupB h1
          obtain ⟨hsh, hc2⟩ := ihS c1 sh sh2 c2 hc1 hsupS h2
          subst hbnd
          subst hsh
          subst hc'
          subst hr
          exact ⟨rfl, CacheId_setA_self hc2 _, by
            rw [keysA_setA]
            split
            · assumption
            · simp⟩
        | matrixProduct x1 x2 tg =>
          simp only [copySupported, Bool.and_eq_true] at hsup
          obtain ⟨hs1, hs2⟩ := hsup
          simp only [copyBodyT] at h
          obtain ⟨⟨y1, c1⟩, h1, h⟩ := Option.bind_eq_some.mp h
          obtain ⟨⟨y2, c2⟩, h2, h⟩ := Option.bind_eq_some.mp h
          simp only [Option.some.injEq, Prod.mk.injEq] at h
          obtain ⟨hr, hc'⟩ := h
          obtain ⟨hy1, hc1, _⟩ := ihA cache x1 y1 c1 hc hs1 h1
          obtain ⟨hy2, hc2, _⟩ := ihA c1 x2 y2 c2 hc1 hs2 h2
          subst hy1
          subst hy2
          subst hc'
          subst hr
          exact ⟨rfl, CacheId_setA_self hc2 _, by
            rw [keysA_setA]
            split
            · assumption
            · simp⟩
        | stack as ax tg =>
          simp only [copySupported] at hsup
          simp only [copyBodyT] at h
          obtain ⟨⟨as2, c1⟩, h1, h⟩ := Option.bind_eq_some.mp h
          simp only [Option.some.injEq, Prod.mk.injEq] at h
          obtain ⟨hr, hc'⟩ := h
          obtain ⟨has, hc1⟩ := ihL cache as as2 c1 hc hsup h1
          subst has
          subst hc'
          subst hr
          exact ⟨rfl, CacheId_setA_self hc1 _, by
            rw [keysA_setA]
            split
            · assumption
            · simp⟩
        | roll a sh ax tg =>
          simp only [copySupported] at hsup
          simp only [copyBodyT] at h
          obtain ⟨⟨a2, c1⟩, h1, h⟩ := Option.bind_eq_some.mp h
          simp only [Option.some.injEq, Prod.mk.injEq] at h
          obtain ⟨hr, hc'⟩ := h
          obtain ⟨ha2, hc1, _⟩ := ihA cache a a2 c1 hc hsup h1
          subst ha2
          subst hc'
          subst hr
          exact ⟨rfl, CacheId_setA_self hc1 _, by
            rw [keysA_setA]
            split
            · assumption
            · simp⟩
        | axisPermutation a ax tg =>
          simp only [copySupported] at hsup
          simp only [copyBodyT] at h
          obtain ⟨⟨a2, c1⟩, h1, h⟩ := Option.bind_eq_some.mp h
          simp only [Option.some.injEq, Prod.mk.injEq] at h
          obtain ⟨hr, hc'⟩ := h
          obtain ⟨ha2, hc1, _⟩ := ihA cache a a2 c1 hc hsup h1
          subst ha2
          subst hc'
          subst hr
          exact ⟨rfl, CacheId_setA_self hc1 _, by
            rw [keysA_setA]
            split
            · assumption
            · simp⟩
        | slice a st sp tg =>
          simp only [copySupported] at hsup
          simp only [copyBodyT] at h
          obtain ⟨⟨a2, c1⟩, h1, h⟩ := Option.bind_eq_some.mp h
          simp only [Option.some.injEq, Prod.mk.injEq] at h
          obtain ⟨hr, hc'⟩ := h
          obtain ⟨ha2, hc1, _⟩ := ihA cache a a2 c1 hc hsup h1
          subst ha2
          subst hc'
          subst hr
          exact ⟨rfl, CacheId_setA_self hc1 _, by
            rw [keysA_setA]
            split
            · assumption
            · simp⟩
    · intro cache es rs c' hc hsup h
      cases es with
      | nil =>
        simp only [copyListT, Option.some.injEq, Prod.mk.injEq] at h
        obtain ⟨h1, h2⟩ := h
        subst h1; subst h2
        exact ⟨rfl, hc⟩
      | cons a rest =>
        match fuel, h with
        | fuel + 1, h =>
        have ihA := (ih fuel (by omega)).1
        have ihL := (ih fuel (by omega)).2.1
        simp only [copyListSupported, Bool.and_eq_true] at hsup
        obtain ⟨hsa, hsr⟩ := hsup
        simp only [copyListT] at h
        obtain ⟨⟨a2, c1⟩, h1, h⟩ := Option.bind_eq_some.mp h
        obtain ⟨⟨rest2, c2⟩, h2, h⟩ := Option.bind_eq_some.mp h
        simp only [Option.some.injEq, Prod.mk.injEq] at h
        obtain ⟨hr, hc'⟩ := h
        obtain ⟨ha2, hc1, _⟩ := ihA cache a a2 c1 hc hsa h1
        obtain ⟨hrest, hc2⟩ := ihL c1 rest rest2 c2 hc1 hsr h2
        subst ha2; subst hrest; subst hc'
        exact ⟨hr.symm, hc2⟩
    · intro cache bs rs c' hc hsup h
      cases bs with
      | nil =>
        simp only [copyBindT, Option.some.injEq, Prod.mk.injEq] at h
        obtain ⟨h1, h2⟩ := h
        subst h1; subst h2
        exact ⟨rfl, hc⟩
      | cons kv rest =>
        obtain ⟨k, v⟩ := kv
        match fuel, h with
        | fuel + 1, h =>
        have ihA := (ih fuel (by omega)).1
        have ihB := (ih fuel (by omega)).2.2.1
        simp only [copyBindSupported, Bool.and_eq_true] at hsup
        obtain ⟨hsv, hsr⟩ := hsup
        simp only [copyBindT] at h
        obtain ⟨⟨v2, c1⟩, h1, h⟩ := Option.bind_eq_some.mp h
        obtain ⟨⟨rest2, c2⟩, h2, h⟩ := Option.bind_eq_some.mp h
        simp only [Option.some.injEq, Prod.mk.injEq] at h
        obtain ⟨hr, hc'⟩ := h
        obtain ⟨hv2, hc1, _⟩ := ihA cache v v2 c1 hc hsv h1
        obtain ⟨hrest, hc2⟩ := ihB c1 rest rest2 c2 hc1 hsr h2
        subst hv2; subst hrest; subst hc'
        exact ⟨hr.symm, hc2⟩
    · intro cache ds rs c' hc hsup h
      cases ds with
      | nil =>
        simp only [copyShapeT, Option.some.injEq, Prod.mk.injEq] at h
        obtain ⟨h1, h2⟩ := h
        subst h1; subst h2
        exact ⟨rfl, hc⟩
      | cons d rest =>
        match fuel, h with
        | fuel + 1, h =>
        have ihA := (ih fuel (by omega)).1
        have ihS := (ih fuel (by omega)).2.2.2
        simp only [copyShapeSupported, Bool.and_eq_true] at hsup
        obtain ⟨hsd, hsr⟩ := hsup
        simp only [copyShapeT] at h
        by_cases hd : d.isArrayNode = true
        · rw [if_pos hd] at h
          obtain ⟨⟨d2, c1⟩, h1, h⟩ := Option.bind_eq_some.mp h
          obtain ⟨⟨rest2, c2⟩, h2, h⟩ := Option.bind_eq_some.mp h
          simp only [Option.some.injEq, Prod.mk.injEq] at h
          obtain ⟨hr, hc'⟩ := h
          rw [if_pos hd] at hsd
          obtain ⟨hd2, hc1, _⟩ := ihA cache d d2 c1 hc hsd h1
          obtain ⟨hrest, hc2⟩ := ihS c1 rest rest2 c2 hc1 hsr h2
          subst hd2; subst hrest; subst hc'
          exact ⟨hr.symm, hc2⟩
        · rw [if_neg hd] at h
          obtain ⟨⟨rest2, c2⟩, h2, h⟩ := Option.bind_eq_some.mp h
          simp only [Option.some.injEq, Prod.mk.injEq] at h
          obtain ⟨hr, hc'⟩ := h
          obtain ⟨hrest, hc2⟩ := ihS cache rest rest2 c2 hc hsr h2
          subst hrest; subst hc'
          exact ⟨hr.symm, hc2⟩

end Pytato

namespace Pytato

/-- C5 counterexample.  The claim quantifies over every node kind, but
CopyMapper has no rule for Reshape (nor Concatenate, nor DistributedRecv):
copying a Reshape node raises UnsupportedArrayError (none), while a
same-sized node of a supported kind copies fine with the same fuel. -/
theorem copy_mapper_reshape_counterexample :
    copyT 5 [] (.reshape (.sizeParam "n" "") [4] "t") = none ∧
    copyT 5 [] (.concatenate [.sizeParam "n" ""] 0 "t") = none ∧
    copyT 5 [] (.distributedRecv (.sizeParam "n" "")) = none ∧
    copyT 5 [] (.roll (.sizeParam "n" "") 1 0 "t") =
      some (.roll (.sizeParam "n" "") 1 0 "t",
        [(.sizeParam "n" "", .sizeParam "n" ""),
         (.roll (.sizeParam "n" "") 1 0 "t", .roll (.sizeParam "n" "") 1 0 "t")]) := by
  exact ⟨by decide, by decide, by decide, by decide⟩

/-- C5 (amended).  For every node built from the kinds CopyMapper has
rules for (all kinds except Reshape, Concatenate and DistributedRecv, and
with no constraint on the untraversed child of a DistributedSend), and any
cache arising from such copies (every entry maps a node to itself), a
successful copy returns a node structurally equal to the original — hence
the output is exactly as large as the input and shares exactly as the
input does — the cache keeps mapping nodes to themselves, and copying the
copy again is idempotent: it answers from the memo with the same node and
an unchanged cache. -/
theorem copy_mapper_identity (fuel : Nat) (cache : List (TArr × TArr)) (e r : TArr)
    (c' : List (TArr × TArr)) (hc : CacheId cache) (hsup : copySupported e = true)
    (h : copyT fuel cache e = some (r, c')) :
    r = e ∧ CacheId c' ∧ (∀ fuel2, copyT (fuel2 + 1) c' e = some (e, c')) := by
  obtain ⟨hr, hc2, hmem⟩ := (copyT_identity_all fuel).1 cache e r c' hc hsup h
  refine ⟨hr, hc2, ?_⟩
  intro fuel2
  have hs : (lookupA c' e).isSome := (lookupA_isSome_iff_mem_keys c' e).mpr hmem
  obtain ⟨v, hv⟩ := Option.isSome_iff_exists.mp hs
  have hve : v = e := hc2 (e, v) (lookupA_mem hv)
  rw [copyT_succ, hv, hve]

/-- A shared placeholder operand used by concrete witness graphs. -/
def sharedX : TArr := .placeholder "x" [.dimConst 2, .dimConst 2] "f" ""

/-- A diamond witness graph: a matrix product sharing one placeholder. -/
def sharedMM : TArr := .matrixProduct sharedX sharedX ""

/-- The cache after copying the diamond witness graph. -/
def sharedCopyCache : List (TArr × TArr) := [(sharedX, sharedX), (sharedMM, sharedMM)]

/-- Witness for C5 (amended) on a diamond DAG: a matrix product sharing one
placeholder operand. -/
theorem copy_mapper_identity_witness :
    CacheId ([] : List (TArr × TArr)) ∧ copySupported sharedMM = true ∧
    copyT 10 [] sharedMM = some (sharedMM, sharedCopyCache) ∧
    (sharedMM = sharedMM ∧ CacheId sharedCopyCache ∧
      (∀ fuel2, copyT (fuel2 + 1) sharedCopyCache sharedMM = some (sharedMM, sharedCopyCache))) := by
  refine ⟨?_, ?_, ?_, ?_⟩
  · intro kv h
    cases h
  · decide
  · decide
  · exact copy_mapper_identity 10 [] sharedMM sharedMM sharedCopyCache
      (by intro kv h; cases h) (by decide) (by decide)

end Pytato

namespace Pytato

/-! ## Claim C6: DependencyMapper -/

/-- One dependency edge: from a node to one of its children or node-valued
shape components. -/
def depStep (a b : TArr) : Prop := b ∈ walkChildren a

/-- Transitive reachability along dependency edges. -/
def Reach (a b : TArr) : Prop := Relation.ReflTransGen depStep a b

/-- A dependency set is good for a root: it contains the root, it is closed
under children and node-valued shape components of its members, and every
member is reachable from the root. -/
def DepsGood (root : TArr) (ds : List TArr) : Prop :=
  root ∈ ds ∧ (∀ m ∈ ds, ∀ ch ∈ walkChildren m, ch ∈ ds) ∧ ∀ m ∈ ds, Reach root m

/-- Every cached dependency set is good for its key. -/
def CacheGood (cache : List (TArr × List TArr)) : Prop :=
  ∀ kv ∈ cache, DepsGood kv.1 kv.2

theorem mem_setA {α β : Type} [DecidableEq α] {d : List (α × β)} {k : α} {v : β}
    {kv : α × β} (h : kv ∈ setA d k v) : kv = (k, v) ∨ kv ∈ d := by
  induction d with
  | nil => simpa [setA] using h
  | cons kv0 rest ih =>
    obtain ⟨k0, v0⟩ := kv0
    simp only [setA] at h
    split at h
    · rcases List.mem_cons.mp h with h | h
      · exact Or.inl h
      · exact Or.inr (List.mem_cons_of_mem _ h)
    · rcases List.mem_cons.mp h with h | h
      · exact Or.inr (h ▸ List.mem_cons_self _ _)
      · rcases ih h with h | h
        · exact Or.inl h
        · exact Or.inr (List.mem_cons_of_mem _ h)

theorem mem_foldl_unionT {x : TArr} :
    ∀ (l : List (List TArr)) (init : List TArr),
      x ∈ l.foldl unionT init ↔ x ∈ init ∨ ∃ t ∈ l, x ∈ t := by
  intro l
  induction l with
  | nil => simp
  | cons t rest ih =>
    intro init
    simp only [List.foldl_cons]
    rw [ih (unionT init t)]
    simp only [mem_unionT, List.mem_cons]
    constructor
    · rintro ((h | h) | ⟨u, hu, hx⟩)
      · exact Or.inl h
      · exact Or.inr ⟨t, Or.inl rfl, h⟩
      · exact Or.inr ⟨u, Or.inr hu, hx⟩
    · rintro (h | ⟨u, (rfl | hu), hx⟩)
      · exact Or.inl (Or.inl h)
      · exact Or.inl (Or.inr hx)
      · exact Or.inr ⟨u, hu, hx⟩

theorem forall₂_mem_right {α β : Type} {R : α → β → Prop} :
    ∀ {l1 : List α} {l2 : List β}, List.Forall₂ R l1 l2 →
      ∀ b ∈ l2, ∃ a ∈ l1, R a b := by
  intro l1 l2 h
  induction h with
  | nil => simp
  | cons hr _ ih =>
    intro b hb
    rcases List.mem_cons.mp hb with rfl | hb
    · exact ⟨_, List.mem_cons_self _ _, hr⟩
    · obtain ⟨a, ha, hab⟩ := ih b hb
      exact ⟨a, List.mem_cons_of_mem _ ha, hab⟩

theorem forall₂_mem_left {α β : Type} {R : α → β → Prop} :
    ∀ {l1 : List α} {l2 : List β}, List.Forall₂ R l1 l2 →
      ∀ a ∈ l1, ∃ b ∈ l2, R a b := by
  intro l1 l2 h
  induction h with
  | nil => simp
  | cons hr _ ih =>
    intro a ha
    rcases List.mem_cons.mp ha with rfl | ha
    · exact ⟨_, List.mem_cons_self _ _, hr⟩
    · obtain ⟨b, hb, hab⟩ := ih a ha
      exact ⟨b, List.mem_cons_of_mem _ hb, hab⟩

theorem depsT_good_all : ∀ fuel : Nat,
    (∀ cache e ds c', CacheGood cache → depsT fuel cache e = some (ds, c') →
      DepsGood e ds ∧ CacheGood c') ∧
    (∀ cache cs sets c', CacheGood cache →
      depsChildrenT fuel cache cs = some (sets, c') →
      List.Forall₂ DepsGood cs sets ∧ CacheGood c') := by
  intro fuel
  induction fuel using Nat.strong_induction_on with
  | _ fuel ih =>
    constructor
    · intro cache e ds c' hc h
      match fuel, h with
      | fuel + 1, h =>
      rw [depsT_succ] at h
      cases hl : lookupA cache e with
      | some r0 =>
        rw [hl] at h
        simp only [Option.some.injEq, Prod.mk.injEq] at h
        obtain ⟨h1, h2⟩ := h
        subst h2
        exact ⟨h1 ▸ hc (e, r0) (lookupA_mem hl), hc⟩
      | none =>
        rw [hl] at h
        match fuel, h with
        | fuel + 1, h =>
        simp only [depsBodyT] at h
        split at h
        · obtain ⟨⟨sets, c1⟩, h1, h⟩ := Option.bind_eq_some.mp h
          simp only [Option.some.injEq, Prod.mk.injEq] at h
          obtain ⟨hds, hc'⟩ := h
          obtain ⟨hf2, hc1⟩ := (ih fuel (by omega)).2 cache (walkChildren e) sets c1 hc h1
          have hgood : DepsGood e ds := by
            subst hds
            refine ⟨(mem_foldl_unionT sets [e]).mpr (Or.inl (by simp)), ?_, ?_⟩
            · intro m hm ch hch
              rcases (mem_foldl_unionT sets [e]).mp hm with hm | ⟨t, ht, hmt⟩
              · simp only [List.mem_singleton] at hm
                subst hm
                obtain ⟨t0, ht0, hgood0⟩ := forall₂_mem_left hf2 ch hch
                exact (mem_foldl_unionT _ _).mpr
                  (Or.inr ⟨t0, ht0, hgood0.1⟩)
              · obtain ⟨a, ha, hgooda⟩ := forall₂_mem_right hf2 t ht
                exact (mem_foldl_unionT sets [e]).mpr
                  (Or.inr ⟨t, ht, hgooda.2.1 m hmt ch hch⟩)
            · intro m hm
              rcases (mem_foldl_unionT sets [e]).mp hm with hm | ⟨t, ht, hmt⟩
              · simp only [List.mem_singleton] at hm
                subst hm
                exact Relation.ReflTransGen.refl
              · obtain ⟨a, ha, hgooda⟩ := forall₂_mem_right hf2 t ht
                exact Relation.ReflTransGen.trans
                  (Relation.ReflTransGen.single ha) (hgooda.2.2 m hmt)
          refine ⟨hgood, ?_⟩
          subst hc'
          intro kv hkv
          rcases mem_setA hkv with rfl | hkv
          · exact hds ▸ hgood
          · exact hc1 kv hkv
        · exact absurd h (by simp)
    · intro cache cs sets c' hc h
      cases cs with
      | nil =>
        simp only [depsChildrenT, Option.some.injEq, Prod.mk.injEq] at h
        obtain ⟨h1, h2⟩ := h
        subst h1; subst h2
        exact ⟨List.Forall₂.nil, hc⟩
      | cons c rest =>
        match fuel, h with
        | fuel + 1, h =>
        simp only [depsChildrenT] at h
        obtain ⟨⟨ds, c1⟩, h1, h⟩ := Option.bind_eq_some.mp h
        obtain ⟨⟨rest2, c2⟩, h2, h⟩ := Option.bind_eq_some.mp h
        simp only [Option.some.injEq, Prod.mk.injEq] at h
        obtain ⟨hs, hc'⟩ := h
        obtain ⟨hg1, hc1⟩ := (ih fuel (by omega)).1 cache c ds c1 hc h1
        obtain ⟨hg2, hc2⟩ := (ih fuel (by omega)).2 c1 rest rest2 c2 hc1 h2
        subst hs; subst hc'
        exact ⟨List.Forall₂.cons hg1 hg2, hc2⟩

end Pytato

namespace Pytato

theorem getDepsLoop_good (fuel : Nat) :
    ∀ (outputs : List (String × TArr)) (acc : List (String × List TArr))
      (cache : List (TArr × List TArr)) res c',
      CacheGood cache → getDepsLoop fuel outputs acc cache = some (res, c') →
      ∃ newPairs, res = acc ++ newPairs ∧ CacheGood c' ∧
        List.Forall₂ (fun (o : String × TArr) (rd : String × List TArr) =>
          o.1 = rd.1 ∧ DepsGood o.2 rd.2) outputs newPairs := by
  intro outputs
  induction outputs with
  | nil =>
    intro acc cache res c' hc h
    simp only [getDepsLoop, Option.some.injEq, Prod.mk.injEq] at h
    obtain ⟨h1, h2⟩ := h
    subst h1; subst h2
    exact ⟨[], by simp, hc, List.Forall₂.nil⟩
  | cons kv rest ih =>
    intro acc cache res c' hc h
    simp only [getDepsLoop] at h
    obtain ⟨⟨ds, c1⟩, h1, h2⟩ := Option.bind_eq_some.mp h
    obtain ⟨hgood, hc1⟩ := (depsT_good_all fuel).1 cache kv.2 ds c1 hc h1
    obtain ⟨newPairs, hres, hc', hf2⟩ := ih (acc ++ [(kv.1, ds)]) c1 res c' hc1 h2
    refine ⟨(kv.1, ds) :: newPairs, by simpa using hres, hc', ?_⟩
    exact List.Forall₂.cons ⟨rfl, hgood⟩ hf2

/-- C6 counterexample.  The claim quantifies over every named output, but
DependencyMapper has no rule for DistributedSend (nor DistributedRecv):
get_dependencies on such an output raises UnsupportedArrayError (none)
instead of returning a set containing the root, while a Reshape output of
the same size works. -/
theorem dependency_mapper_send_counterexample :
    getDependencies 5 [("out", .distributedSend (.sizeParam "n" ""))] = none ∧
    getDependencies 5 [("out", .distributedRecv (.sizeParam "n" ""))] = none ∧
    getDependencies 5 [("out", .reshape (.sizeParam "n" "") [4] "t")] =
      some [("out", [.reshape (.sizeParam "n" "") [4] "t", .sizeParam "n" ""])] :=
  ⟨by decide, by decide, by decide⟩

/-- C6 (amended).  For every named-outputs set whose nodes avoid
DistributedSend/Recv (on which the mapper errors), get_dependencies
returns, per output name in order, a dependency set that contains the
output node itself, is closed under children and node-valued shape
components of its members, and contains only nodes transitively reachable
from the output — i.e. exactly the transitive requirements.  Combination
is set union and leaves map to the singleton of themselves: a SizeParam
not answered from the memo yields exactly its own singleton. -/
theorem dependency_mapper_closure (fuel : Nat) (outputs : List (String × TArr))
    (res : List (String × List TArr))
    (h : getDependencies fuel outputs = some res) :
    List.Forall₂ (fun (o : String × TArr) (rd : String × List TArr) =>
      o.1 = rd.1 ∧ o.2 ∈ rd.2 ∧
      (∀ m ∈ rd.2, ∀ ch ∈ walkChildren m, ch ∈ rd.2) ∧
      (∀ m ∈ rd.2, Reach o.2 m)) outputs res ∧
    (∀ (n tg : String) (cache : List (TArr × List TArr)) (f2 : Nat),
      lookupA cache (TArr.sizeParam n tg) = none →
      depsT (f2 + 2) cache (.sizeParam n tg) =
        some ([.sizeParam n tg], setA cache (.sizeParam n tg) [.sizeParam n tg])) := by
  constructor
  · simp only [getDependencies, Option.map_eq_some'] at h
    obtain ⟨⟨res0, c'⟩, h1, h2⟩ := h
    obtain ⟨newPairs, hres, _, hf2⟩ := getDepsLoop_good fuel outputs [] [] res0 c'
      (by intro kv hkv; cases hkv) h1
    subst h2
    rw [List.nil_append] at hres
    subst hres
    exact hf2.imp (fun {o rd} hp => ⟨hp.1, hp.2.1, hp.2.2.1, hp.2.2.2⟩)
  · intro n tg cache f2 hnone
    rw [depsT_succ, hnone]
    simp [depsBodyT, depsChildrenT, depsSupported, walkChildren, unionT]

/-- Witness for C6 (amended) on the diamond graph. -/
theorem dependency_mapper_closure_witness :
    getDependencies 10 [("o", sharedMM)] = some [("o", [sharedMM, sharedX])] ∧
    (List.Forall₂ (fun (o : String × TArr) (rd : String × List TArr) =>
      o.1 = rd.1 ∧ o.2 ∈ rd.2 ∧
      (∀ m ∈ rd.2, ∀ ch ∈ walkChildren m, ch ∈ rd.2) ∧
      (∀ m ∈ rd.2, Reach o.2 m)) [("o", sharedMM)] [("o", [sharedMM, sharedX])] ∧
    (∀ (n tg : String) (cache : List (TArr × List TArr)) (f2 : Nat),
      lookupA cache (TArr.sizeParam n tg) = none →
      depsT (f2 + 2) cache (.sizeParam n tg) =
        some ([.sizeParam n tg], setA cache (.sizeParam n tg) [.sizeParam n tg]))) := by
  have hd : getDependencies 10 [("o", sharedMM)] = some [("o", [sharedMM, sharedX])] := by
    decide
  exact ⟨hd, dependency_mapper_closure 10 [("o", sharedMM)] [("o", [sharedMM, sharedX])] hd⟩

end Pytato

namespace Pytato

/-! ## Claim C4: InlinedResult.to_loopy_expression -/

/-- The fresh reduction-iname scheme _r0, _r1, ... -/
def rname (k : Nat) : String := "_r" ++ natStr k

/-- The canonical reduction-bound key list _r0 .. _r(n-1), the form every
context built by codegen.py has. -/
def rlist (n : Nat) : List String := (List.range n).map rname

theorem rname_inj : Function.Injective rname := by
  intro a b h
  exact natStr_inj (string_append_right_inj (a := "_r") h)

theorem lookupA_setA_ne {α β : Type} [DecidableEq α] (d : List (α × β)) {k k' : α}
    (v : β) (hne : k ≠ k') : lookupA (setA d k v) k' = lookupA d k' := by
  induction d with
  | nil => simp [setA, lookupA, hne]
  | cons kv rest ih =>
    obtain ⟨k0, v0⟩ := kv
    simp only [setA]
    split
    · rename_i heq
      subst heq
      simp only [lookupA, if_neg hne]
    · simp only [lookupA]
      split
      · rfl
      · exact ih

theorem keysA_append {α β : Type} (a b : List (α × β)) :
    keysA (a ++ b) = keysA a ++ keysA b := by
  simp [keysA]

/-- The renamed copy of an InlinedResult's reduction-bound list: the j-th
entry keeps its bounds under the fresh name _r(start+i+j). -/
def renSuffix (start : Nat) : Nat → List (String × ScalarExpr × ScalarExpr) →
    List (String × ScalarExpr × ScalarExpr)
  | _, [] => []
  | i, (_, bounds) :: rest => (rname (i + start), bounds) :: renSuffix start (i + 1) rest

theorem renSuffix_length (start : Nat) :
    ∀ (i : Nat) (l : List (String × ScalarExpr × ScalarExpr)),
      (renSuffix start i l).length = l.length := by
  intro i l
  induction l generalizing i with
  | nil => simp [renSuffix]
  | cons kv rest ih =>
    obtain ⟨nm, bounds⟩ := kv
    simp [renSuffix, ih]

theorem keysA_renSuffix (start : Nat) :
    ∀ (i : Nat) (l : List (String × ScalarExpr × ScalarExpr)),
      keysA (renSuffix start i l) =
        (List.range l.length).map (fun j => rname (start + i + j)) := by
  intro i l
  induction l generalizing i with
  | nil => simp [renSuffix, keysA]
  | cons kv rest ih =>
    obtain ⟨nm, bounds⟩ := kv
    simp only [renSuffix, keysA, List.map_cons, List.length_cons,
      List.range_succ_eq_map, List.map_map]
    congr 1
    · congr 1
      omega
    · rw [show List.map Prod.fst (renSuffix start (i + 1) rest) =
          keysA (renSuffix start (i + 1) rest) from rfl]
      rw [ih (i + 1)]
      apply List.map_congr_left
      intro j _
      simp only [Function.comp_apply]
      congr 1
      omega

theorem sndA_renSuffix (start : Nat) :
    ∀ (i : Nat) (l : List (String × ScalarExpr × ScalarExpr)),
      (renSuffix start i l).map (fun kv => kv.2) = l.map (fun kv => kv.2) := by
  intro i l
  induction l generalizing i with
  | nil => simp [renSuffix]
  | cons kv rest ih =>
    obtain ⟨nm, bounds⟩ := kv
    simp [renSuffix, ih]

/-- Characterization of the reduction-renaming loop on success: the
context's map is extended, in order, by self's bounds under the fresh
names _r(start+i+j); each fresh name was checked absent from the map it
was added to; the substitution is extended with the renames and untouched
elsewhere. -/
theorem inlinedSubstLoop_some (start : Nat) :
    ∀ (rbSelf : List (String × ScalarExpr × ScalarExpr)) (i : Nat)
      (subs : List (String × ScalarExpr))
      (rb : List (String × ScalarExpr × ScalarExpr)) subs' rb',
      inlinedSubstLoop start rbSelf i subs rb = some (subs', rb') →
      rb' = rb ++ renSuffix start i rbSelf ∧
      (∀ j < rbSelf.length, rname (start + i + j) ∉ keysA rb) ∧
      (∀ nm, nm ∉ keysA rbSelf → lookupA subs' nm = lookupA subs nm) ∧
      ((keysA rbSelf).Nodup → ∀ j, (hj : j < rbSelf.length) →
        lookupA subs' ((keysA rbSelf).getD j "") =
          some (.varb (rname (start + i + j)))) := by
  intro rbSelf
  induction rbSelf with
  | nil =>
    intro i subs rb subs' rb' h
    simp only [inlinedSubstLoop, Option.some.injEq, Prod.mk.injEq] at h
    obtain ⟨h1, h2⟩ := h
    subst h1
    subst h2
    refine ⟨by simp [renSuffix], by simp, fun nm _ => rfl, by simp⟩
  | cons kv rest ih =>
    intro i subs rb subs' rb' h
    obtain ⟨oldName, bounds⟩ := kv
    simp only [inlinedSubstLoop] at h
    split at h
    · exact absurd h (by simp)
    · rename_i hnotmem
      obtain ⟨hrb', hfresh, hpres, hold⟩ := ih (i + 1)
        (setA subs oldName (.varb (rname (i + start)))) (rb ++ [(rname (i + start), bounds)])
        subs' rb' h
      have harith : ∀ j : Nat, start + (i + 1) + j = start + i + (j + 1) := by omega
      refine ⟨?_, ?_, ?_, ?_⟩
      · rw [hrb']
        simp [renSuffix]
      · intro j hj
        match j with
        | 0 =>
          intro hmem
          rw [show start + i + 0 = i + start by omega] at hmem
          exact hnotmem hmem
        | j + 1 =>
          have hj2 : j < rest.length := by simpa using hj
          have hf := hfresh j hj2
          rw [harith j] at hf
          intro hmem
          exact hf (by
            rw [keysA_append]
            exact List.mem_append.mpr (Or.inl hmem))
      · intro nm hnm
        simp only [keysA, List.map_cons, List.mem_cons] at hnm
        push_neg at hnm
        obtain ⟨hnm1, hnm2⟩ := hnm
        rw [hpres nm (by simpa [keysA] using hnm2)]
        exact lookupA_setA_ne subs _ (fun hx => hnm1 hx.symm)
      · intro hnodup j hj
        simp only [keysA, List.map_cons, List.nodup_cons] at hnodup
        obtain ⟨hnotin, hnodup2⟩ := hnodup
        match j with
        | 0 =>
          have h0 : lookupA subs' oldName =
              lookupA (setA subs oldName (.varb (rname (i + start)))) oldName :=
            hpres oldName (by simpa [keysA] using hnotin)
          rw [show (keysA ((oldName, bounds) :: rest)).getD 0 "" = oldName from rfl]
          rw [h0, lookupA_setA_self]
          rw [show start + i + 0 = i + start by omega]
        | j + 1 =>
          have hj2 : j < rest.length := by simpa using hj
          have hv := hold hnodup2 j hj2
          rw [harith j] at hv
          have hget : (keysA ((oldName, bounds) :: rest)).getD (j + 1) "" =
              (keysA rest).getD j "" := by
            simp [keysA, List.getD]
          rw [hget]
          exact hv

/-- The renaming loop succeeds whenever none of the fresh names it will
try is already a key of the context's map. -/
theorem inlinedSubstLoop_succeeds (start : Nat) :
    ∀ (rbSelf : List (String × ScalarExpr × ScalarExpr)) (i : Nat)
      (subs : List (String × ScalarExpr))
      (rb : List (String × ScalarExpr × ScalarExpr)),
      (∀ j, rname (start + i + j) ∉ keysA rb) →
      ∃ out, inlinedSubstLoop start rbSelf i subs rb = some out := by
  intro rbSelf
  induction rbSelf with
  | nil => exact fun i subs rb _ => ⟨_, rfl⟩
  | cons kv rest ih =>
    intro i subs rb hfresh
    obtain ⟨oldName, bounds⟩ := kv
    simp only [inlinedSubstLoop]
    rw [if_neg (by
      have := hfresh 0
      rw [show start + i + 0 = i + start by omega] at this
      exact this)]
    apply ih (i + 1)
    intro j
    rw [keysA_append]
    intro hmem
    rcases List.mem_append.mp hmem with hmem | hmem
    · have := hfresh (j + 1)
      rw [show start + i + (j + 1) = start + (i + 1) + j by omega] at this
      exact this hmem
    · simp only [keysA, List.map_cons, List.map_nil, List.mem_singleton] at hmem
      have := rname_inj hmem
      omega

end Pytato

namespace Pytato

theorem lookupA_positional :
    ∀ (l : List ScalarExpr) (k d : Nat), d < l.length →
      lookupA ((List.enumFrom k l).map (fun di => ("_" ++ natStr di.1, di.2)))
        ("_" ++ natStr (k + d)) = l.get? d := by
  intro l
  induction l with
  | nil => intro k d h; simp at h
  | cons x rest ih =>
    intro k d h
    simp only [List.enumFrom, List.map_cons]
    match d with
    | 0 =>
      simp [lookupA]
    | d + 1 =>
      simp only [lookupA]
      rw [if_neg (by
        intro hx
        have := natStr_inj (string_append_right_inj (a := "_") hx)
        omega)]
      have := ih (k + 1) d (by simpa using h)
      rw [show k + 1 + d = k + (d + 1) by omega] at this
      rw [this]
      rfl

/-- Characterization of InlinedResult.to_loopy_expression on success. -/
theorem inlined_toLoopy_char (selfE : ScalarExpr)
    (rbSelf : List (String × ScalarExpr × ScalarExpr)) (dep : List String)
    (indices : List ScalarExpr) (ctx : LECtx) (le : ScalarExpr) (ctx' : LECtx)
    (h : (ImplementedResult.inlined selfE rbSelf dep).toLoopyExpression indices ctx =
      some (le, ctx')) :
    ∃ newPart,
      ctx'.reductionBounds = ctx.reductionBounds ++ newPart ∧
      keysA newPart = (List.range rbSelf.length).map
        (fun j => rname (ctx.reductionBounds.length + j)) ∧
      newPart.map (fun kv => kv.2) = rbSelf.map (fun kv => kv.2) ∧
      (∀ k ∈ keysA newPart, k ∉ keysA ctx.reductionBounds) ∧
      ctx'.reductionBounds.length = ctx.reductionBounds.length + rbSelf.length ∧
      ctx'.localNs = ctx.localNs ∧
      (∀ x, x ∈ ctx'.dependsOn ↔ x ∈ ctx.dependsOn ∨ x ∈ dep) ∧
      (∃ subsF, le = ScalarExpr.subst subsF selfE ∧
        (∀ d, d < indices.length → ("_" ++ natStr d) ∉ keysA rbSelf →
          lookupA subsF ("_" ++ natStr d) = indices.get? d) ∧
        ((keysA rbSelf).Nodup → ∀ j, j < rbSelf.length →
          lookupA subsF ((keysA rbSelf).getD j "") =
            some (.varb (rname (ctx.reductionBounds.length + j))))) := by
  simp only [ImplementedResult.toLoopyExpression] at h
  obtain ⟨⟨subsF, rb'⟩, hloop, h2⟩ := Option.bind_eq_some.mp h
  simp only [Option.some.injEq, Prod.mk.injEq] at h2
  obtain ⟨hle, hctx'⟩ := h2
  obtain ⟨hrb', hfresh, hpres, hold⟩ :=
    inlinedSubstLoop_some ctx.reductionBounds.length rbSelf 0 _ _ subsF rb' hloop
  refine ⟨renSuffix ctx.reductionBounds.length 0 rbSelf, ?_, ?_, ?_, ?_, ?_, ?_, ?_, ?_⟩
  · rw [← hctx']
    exact hrb'
  · rw [keysA_renSuffix]
    apply List.map_congr_left
    intro j _
    rfl
  · exact sndA_renSuffix _ 0 rbSelf
  · intro k hk
    rw [keysA_renSuffix] at hk
    rw [List.mem_map] at hk
    obtain ⟨j, hj, rfl⟩ := hk
    rw [List.mem_range] at hj
    exact hfresh j hj
  · rw [← hctx']
    simp only [hrb', List.length_append, renSuffix_length]
  · rw [← hctx']
  · intro x
    rw [← hctx']
    exact mem_unionS
  · refine ⟨subsF, hle.symm, ?_, ?_⟩
    · intro d hd hnotin
      rw [hpres _ hnotin]
      have := lookupA_positional indices 0 d hd
      simpa [List.enum] using this
    · intro hnodup j hj
      have := hold hnodup j hj
      rw [show ctx.reductionBounds.length + 0 + j =
        ctx.reductionBounds.length + j by omega] at this
      exact this

/-- On a context whose reduction inames are the canonical _r0.._r(n-1) —
the only form codegen.py ever builds — to_loopy_expression always
succeeds and the canonical form is preserved. -/
theorem inlined_toLoopy_canonical_succeeds (selfE : ScalarExpr)
    (rbSelf : List (String × ScalarExpr × ScalarExpr)) (dep : List String)
    (indices : List ScalarExpr) (ctx : LECtx)
    (hcanon : keysA ctx.reductionBounds = rlist ctx.reductionBounds.length) :
    ∃ le ctx',
      (ImplementedResult.inlined selfE rbSelf dep).toLoopyExpression indices ctx =
        some (le, ctx') ∧
      keysA ctx'.reductionBounds =
        rlist (ctx.reductionBounds.length + rbSelf.length) ∧
      ctx'.reductionBounds.length = ctx.reductionBounds.length + rbSelf.length := by
  obtain ⟨⟨subsF, rb'⟩, hloop⟩ :=
    inlinedSubstLoop_succeeds ctx.reductionBounds.length rbSelf 0
      (indices.enum.map (fun di => ("_" ++ natStr di.1, di.2)))
      ctx.reductionBounds
      (by
        intro j hmem
        rw [hcanon] at hmem
        simp only [rlist, List.mem_map] at hmem
        obtain ⟨k, hk, hkeq⟩ := hmem
        rw [List.mem_range] at hk
        have := rname_inj hkeq
        omega)
  have hsome : (ImplementedResult.inlined selfE rbSelf dep).toLoopyExpression indices ctx =
      some (ScalarExpr.subst subsF selfE,
        ({ dependsOn := unionS ctx.dependsOn dep, localNs := ctx.localNs,
           reductionBounds := rb' } : LECtx)) := by
    simp only [ImplementedResult.toLoopyExpression]
    rw [hloop]
    rfl
  obtain ⟨newPart, hrb, hkeys, _, _, hlen, _, _, _⟩ :=
    inlined_toLoopy_char selfE rbSelf dep indices ctx _ _ hsome
  refine ⟨_, _, hsome, ?_, ?_⟩
  · show keysA rb' = rlist (ctx.reductionBounds.length + rbSelf.length)
    have h2 : rb' = ctx.reductionBounds ++ newPart := hrb
    rw [h2, keysA_append, hcanon, hkeys]
    simp only [rlist, List.range_add, List.map_append, List.map_map]
    rfl
  · exact hlen

/-- C4.  Whenever InlinedResult.to_loopy_expression returns: the renamed
internal reduction inames _r(n+j) are pairwise distinct and disjoint from
the n names already in the context's reduction-bound map; the map is
extended by exactly the result's bounds under those fresh names, so its
size is the exact sum n + (number of internal reductions); the dependency
set is merged in and the local namespace is untouched; and the returned
expression is the result's expression under the substitution that maps
the positional placeholder _d to the d-th caller index and each internal
reduction iname to its fresh counterpart.  On every context whose
reduction inames are canonical (_r0.._r(n-1) — the only contexts
codegen.py builds) the call succeeds with the canonical form preserved,
and consequently splicing two inlined results into one such context in
sequence yields a reduction-bound map whose size is the sum of the two
reduction counts on top of the context's: no silent merging of unrelated
reductions. -/
theorem inlined_to_loopy_expression_spec (selfE : ScalarExpr)
    (rbSelf : List (String × ScalarExpr × ScalarExpr)) (dep : List String)
    (indices : List ScalarExpr) (ctx : LECtx) :
    (∀ le ctx',
      (ImplementedResult.inlined selfE rbSelf dep).toLoopyExpression indices ctx =
        some (le, ctx') →
      ∃ newPart,
        ctx'.reductionBounds = ctx.reductionBounds ++ newPart ∧
        keysA newPart = (List.range rbSelf.length).map
          (fun j => rname (ctx.reductionBounds.length + j)) ∧
        (keysA newPart).Nodup ∧
        newPart.map (fun kv => kv.2) = rbSelf.map (fun kv => kv.2) ∧
        (∀ k ∈ keysA newPart, k ∉ keysA ctx.reductionBounds) ∧
        ctx'.reductionBounds.length = ctx.reductionBounds.length + rbSelf.length ∧
        ctx'.localNs = ctx.localNs ∧
        (∀ x, x ∈ ctx'.dependsOn ↔ x ∈ ctx.dependsOn ∨ x ∈ dep) ∧
        (∃ subsF, le = ScalarExpr.subst subsF selfE ∧
          (∀ d, d < indices.length → ("_" ++ natStr d) ∉ keysA rbSelf →
            lookupA subsF ("_" ++ natStr d) = indices.get? d) ∧
          ((keysA rbSelf).Nodup → ∀ j, j < rbSelf.length →
            lookupA subsF ((keysA rbSelf).getD j "") =
              some (.varb (rname (ctx.reductionBounds.length + j)))))) ∧
    (keysA ctx.reductionBounds = rlist ctx.reductionBounds.length →
      ∀ (self2 : ScalarExpr) (rb2 : List (String × ScalarExpr × ScalarExpr))
        (dep2 : List String) (idx2 : List ScalarExpr),
      ∃ le1 ctx1 le2 ctx2,
        (ImplementedResult.inlined selfE rbSelf dep).toLoopyExpression indices ctx =
          some (le1, ctx1) ∧
        (ImplementedResult.inlined self2 rb2 dep2).toLoopyExpression idx2 ctx1 =
          some (le2, ctx2) ∧
        ctx2.reductionBounds.length =
          ctx.reductionBounds.length + rbSelf.length + rb2.length) := by
  constructor
  · intro le ctx' h
    obtain ⟨newPart, h1, h2, h3, h4, h5, h6, h7, h8⟩ :=
      inlined_toLoopy_char selfE rbSelf dep indices ctx le ctx' h
    refine ⟨newPart, h1, h2, ?_, h3, h4, h5, h6, h7, h8⟩
    rw [h2]
    refine List.Nodup.map ?_ (List.nodup_range _)
    intro a b hab
    have := rname_inj hab
    omega
  · intro hcanon self2 rb2 dep2 idx2
    obtain ⟨le1, ctx1, hs1, hcanon1, hlen1⟩ :=
      inlined_toLoopy_canonical_succeeds selfE rbSelf dep indices ctx hcanon
    obtain ⟨le2, ctx2, hs2, _, hlen2⟩ :=
      inlined_toLoopy_canonical_succeeds self2 rb2 dep2 idx2 ctx1
        (by rw [hlen1]; exact hcanon1)
    exact ⟨le1, ctx1, le2, ctx2, hs1, hs2, by omega⟩

/-- Witness for C4: splicing two concrete one-reduction inlined results
into the empty canonical context succeeds, with a final
reduction-bound map of size 0 + 1 + 1. -/
theorem inlined_to_loopy_expression_spec_witness :
    ∃ le1 ctx1 le2 ctx2,
      (ImplementedResult.inlined (.varb "r") [("r", .const 0, .const 3)]
          ["a"]).toLoopyExpression [.varb "_0"]
          (⟨[], [], []⟩ : LECtx) = some (le1, ctx1) ∧
      (ImplementedResult.inlined (.const 7) [("s", .const 0, .const 2)]
          []).toLoopyExpression [] ctx1 = some (le2, ctx2) ∧
      ctx2.reductionBounds.length =
        (⟨[], [], []⟩ : LECtx).reductionBounds.length + 1 + 1 :=
  (inlined_to_loopy_expression_spec (.varb "r") [("r", .const 0, .const 3)]
      ["a"] [.varb "_0"] (⟨[], [], []⟩ : LECtx)).2 (by decide)
    (.const 7) [("s", .const 0, .const 2)] [] []

end Pytato

namespace Pytato

/-! ## C1: the memoization discipline of CodeGenMapper

The recursion of CodeGenMapper reaches a node either as a structural
constituent of its parent (operands, stacked arrays, bindings) or by
resolving a name through the namespaces.  `codegenChildren` and `nodeRefs`
capture the two edge kinds; `RankOk` states that a rank function witnesses
their well-foundedness — the DAG property of the input graph. -/

/-- The structural constituents a lowering rule recurses into. -/
def codegenChildren : AExpr → List AExpr
  | .matrixProduct x1 x2 => [x1, x2]
  | .stack arrays _ => arrays
  | .roll a _ _ => [a]
  | .axisPermutation a _ => [a]
  | .slice a _ _ => [a]
  | .indexLambda _ _ _ bindings => bindings.map Prod.snd
  | _ => []

/-- The names a lowering rule resolves through the global namespace: shape
components of input arguments, and the free references of an IndexLambda
body not bound by its own bindings. -/
def nodeRefs : AExpr → List String
  | .placeholder _ sh _ => (sh.map ScalarExpr.scalarRefs).flatten
  | .dataWrapper _ _ sh _ => (sh.map ScalarExpr.scalarRefs).flatten
  | .indexLambda e _ _ bindings =>
    (ScalarExpr.scalarRefs e).filter (fun nm => decide (nm ∉ keysA bindings))
  | _ => []

/-- Acyclicity of the recursion graph (node → constituent, node → node
resolved from the namespace), witnessed by a rank function. -/
def RankOk (rk : AExpr → Nat) (ns : List (String × AExpr)) : Prop :=
  (∀ e c, c ∈ codegenChildren e → rk c < rk e) ∧
  (∀ e nm a, nm ∈ nodeRefs e → lookupA ns nm = some a → rk a < rk e)

/-- How the memo (`results`), the instrumentation list (`cnt`) and the
namespace of the lowering state evolve across a group of recursive calls
whose nodes all have rank below B: the namespace is untouched, memo
entries are never overwritten, every new memo key has rank below B, and
cnt gains a duplicate-free batch of nodes that were unmemoized before the
group and are memoized after it. -/
def EvolveLt (rk : AExpr → Nat) (B : Nat) (s s' : CGState) : Prop :=
  s'.ns = s.ns ∧
  (∀ k v, lookupA s.results k = some v → lookupA s'.results k = some v) ∧
  (∀ k, lookupA s.results k = none → (lookupA s'.results k).isSome → rk k < B) ∧
  ∃ new, s'.cnt = new ++ s.cnt ∧ new.Nodup ∧
    ∀ q ∈ new, rk q < B ∧ lookupA s.results q = none ∧ (lookupA s'.results q).isSome

theorem EvolveLt.of_frame {rk : AExpr → Nat} {B : Nat} {s s' : CGState}
    (hns : s'.ns = s.ns) (hres : s'.results = s.results) (hcnt : s'.cnt = s.cnt) :
    EvolveLt rk B s s' := by
  refine ⟨hns, ?_, ?_, [], by simp [hcnt], List.nodup_nil, by simp⟩
  · intro k v h
    rw [hres]
    exact h
  · intro k h1 h2
    rw [hres] at h2
    rw [h1] at h2
    simp at h2

theorem EvolveLt.refl {rk : AExpr → Nat} {B : Nat} {s : CGState} : EvolveLt rk B s s :=
  EvolveLt.of_frame rfl rfl rfl

theorem EvolveLt.trans {rk : AExpr → Nat} {B : Nat} {s t u : CGState}
    (h1 : EvolveLt rk B s t) (h2 : EvolveLt rk B t u) : EvolveLt rk B s u := by
  obtain ⟨hns1, hmono1, hkeys1, new1, hcnt1, hnd1, hnew1⟩ := h1
  obtain ⟨hns2, hmono2, hkeys2, new2, hcnt2, hnd2, hnew2⟩ := h2
  refine ⟨hns2.trans hns1, ?_, ?_, new2 ++ new1, ?_, ?_, ?_⟩
  · intro k v h
    exact hmono2 k v (hmono1 k v h)
  · intro k hkn hks
    cases hm : lookupA t.results k with
    | none => exact hkeys2 k hm hks
    | some v => exact hkeys1 k hkn (by simp [hm])
  · rw [hcnt2, hcnt1, List.append_assoc]
  · refine List.Nodup.append hnd2 hnd1 ?_
    intro q hq2 hq1
    have hdone1 := (hnew1 q hq1).2.2
    have hnone2 := (hnew2 q hq2).2.1
    rw [hnone2] at hdone1
    simp at hdone1
  · intro q hq
    rw [List.mem_append] at hq
    rcases hq with hq | hq
    · obtain ⟨hrk, hn2, hd2⟩ := hnew2 q hq
      refine ⟨hrk, ?_, hd2⟩
      cases hm : lookupA s.results q with
      | none => rfl
      | some v =>
        rw [hmono1 q v hm] at hn2
        cases hn2
    · obtain ⟨hrk, hn1, hd1⟩ := hnew1 q hq
      refine ⟨hrk, hn1, ?_⟩
      obtain ⟨v, hv⟩ := Option.isSome_iff_exists.mp hd1
      simp [hmono2 q v hv]

/-- Transport of a property of the pending nodes (entered, not yet
memoized) across an EvolveLt step: the step only completes nodes and adds
completed ones, so the pending set can only shrink. -/
theorem EvolveLt.pend {rk : AExpr → Nat} {B : Nat} {s s' : CGState}
    (h : EvolveLt rk B s s') {C : AExpr → Prop}
    (H : ∀ p ∈ s.cnt, lookupA s.results p = none → C p) :
    ∀ p ∈ s'.cnt, lookupA s'.results p = none → C p := by
  obtain ⟨-, hmono, -, new, hcnt, -, hnew⟩ := h
  intro p hp hpnone
  rw [hcnt, List.mem_append] at hp
  rcases hp with hp | hp
  · have hdone := (hnew p hp).2.2
    rw [hpnone] at hdone
    cases hdone
  · refine H p hp ?_
    cases hm : lookupA s.results p with
    | none => rfl
    | some v =>
      rw [hmono p v hm] at hpnone
      cases hpnone

/-- What one lowering-rule body guarantees about the state, for the node e
it lowers: namespace untouched, memo entries preserved, new memo keys of
rank at most rk e, cnt extended by a duplicate-free batch of
strictly-smaller-rank nodes lowered on e's behalf, each previously
unmemoized and now memoized. -/
def BodyEvolve (rk : AExpr → Nat) (e : AExpr) (s s' : CGState) : Prop :=
  s'.ns = s.ns ∧
  (∀ k v, lookupA s.results k = some v → lookupA s'.results k = some v) ∧
  (∀ k, lookupA s.results k = none → (lookupA s'.results k).isSome → rk k ≤ rk e) ∧
  ∃ new, s'.cnt = new ++ s.cnt ∧ new.Nodup ∧
    ∀ q ∈ new, rk q < rk e ∧ lookupA s.results q = none ∧ (lookupA s'.results q).isSome

/-- Every rule body is sub-recursions (EvolveLt below the node's own rank)
followed by memoizing the node itself. -/
theorem BodyEvolve.of_sub {rk : AExpr → Nat} {e : AExpr} {s t : CGState}
    (h : EvolveLt rk (rk e) s t) (hnone : lookupA s.results e = none)
    (r : ImplementedResult) :
    BodyEvolve rk e s (t.memoize e r) ∧
      lookupA (t.memoize e r).results e = some r := by
  obtain ⟨hns, hmono, hkeys, new, hcnt, hnd, hnew⟩ := h
  have htnone : lookupA t.results e = none := by
    cases hm : lookupA t.results e with
    | none => rfl
    | some v =>
      have := hkeys e hnone (by simp [hm])
      omega
  refine ⟨⟨hns, ?_, ?_, new, hcnt, hnd, ?_⟩, ?_⟩
  · intro k v h
    by_cases hke : k = e
    · subst hke
      rw [hnone] at h
      cases h
    · rw [CGState.memoize, lookupA_setA_ne t.results r (fun hh => hke hh.symm)]
      exact hmono k v h
  · intro k hkn hks
    by_cases hke : k = e
    · subst hke
      exact le_refl _
    · rw [CGState.memoize, lookupA_setA_ne t.results r (fun hh => hke hh.symm)] at hks
      exact le_of_lt (hkeys k hkn hks)
  · intro q hq
    obtain ⟨hrk, hn, hd⟩ := hnew q hq
    refine ⟨hrk, hn, ?_⟩
    by_cases hqe : q = e
    · subst hqe
      omega
    · rw [CGState.memoize, lookupA_setA_ne t.results r (fun hh => hqe hh.symm)]
      exact hd
  · rw [CGState.memoize]
    exact lookupA_setA_self t.results e r

/-- to_loopy_expression never touches the local namespace of the context. -/
theorem toLoopy_localNs {r : ImplementedResult} {idx : List ScalarExpr}
    {ctx : LECtx} {le : ScalarExpr} {ctx1 : LECtx}
    (h : r.toLoopyExpression idx ctx = some (le, ctx1)) :
    ctx1.localNs = ctx.localNs := by
  cases r with
  | stored name dep =>
    simp only [ImplementedResult.toLoopyExpression, Option.some.injEq, Prod.mk.injEq] at h
    rw [← h.2]
  | inlined e rb dep =>
    obtain ⟨⟨subs, rb2⟩, h1, h2⟩ := Option.bind_eq_some.mp h
    simp only [Option.some.injEq, Prod.mk.injEq] at h2
    rw [← h2.2]

/-- add_store touches only the kernel and the name generators: namespace,
memo and instrumentation are unchanged. -/
theorem addStore_frame {name : String} {e : AExpr} {r : ImplementedResult}
    {s : CGState} {flag : Bool} {insnId : String} {s' : CGState}
    (h : addStore name e r s flag = some (insnId, s')) :
    s'.ns = s.ns ∧ s'.results = s.results ∧ s'.cnt = s.cnt := by
  obtain ⟨⟨le, ctx1⟩, h1, h2⟩ := Option.bind_eq_some.mp h
  obtain ⟨domain, h3, h4⟩ := Option.bind_eq_some.mp h2
  simp only [Option.some.injEq, Prod.mk.injEq] at h4
  rw [← h4.2]
  exact ⟨rfl, rfl, rfl⟩

theorem ctxLookup_congr {ctx1 ctx : LECtx} {s1 s : CGState}
    (hl : ctx1.localNs = ctx.localNs) (hn : s1.ns = s.ns) (nm : String) :
    ctxLookup ctx1 s1 nm = ctxLookup ctx s nm := by
  simp only [ctxLookup, hl, hn]

/-- Induction package, codegen: a call on a node of rank below B, with all
pending nodes of rank at least B, evolves the state below B and leaves the
node memoized to the returned result. -/
def CgP (rk : AExpr → Nat) (ns : List (String × AExpr)) (fuel : Nat) : Prop :=
  ∀ e s B r s', codegen fuel e s = some (r, s') →
    s.ns = ns → rk e < B →
    (∀ p ∈ s.cnt, lookupA s.results p = none → B ≤ rk p) →
    EvolveLt rk B s s' ∧ lookupA s'.results e = some r

/-- Induction package, codegenBody. -/
def BdP (rk : AExpr → Nat) (ns : List (String × AExpr)) (fuel : Nat) : Prop :=
  ∀ e s r s', codegenBody fuel e s = some (r, s') →
    s.ns = ns → lookupA s.results e = none →
    (∀ p ∈ s.cnt, lookupA s.results p = none → rk e ≤ rk p) →
    BodyEvolve rk e s s' ∧ lookupA s'.results e = some r

/-- Induction package, stackLoop. -/
def StP (rk : AExpr → Nat) (ns : List (String × AExpr)) (fuel : Nat) : Prop :=
  ∀ outName indices inames axis arrays i rb dep insns s B rb2 dep2 insns2 s',
    stackLoop fuel outName indices inames axis arrays i rb dep insns s =
      some (rb2, dep2, insns2, s') →
    s.ns = ns → (∀ a ∈ arrays, rk a < B) →
    (∀ p ∈ s.cnt, lookupA s.results p = none → B ≤ rk p) →
    EvolveLt rk B s s'

/-- Induction package, exprgen. -/
def ExP (rk : AExpr → Nat) (ns : List (String × AExpr)) (fuel : Nat) : Prop :=
  ∀ se ctx s B le ctx' s', exprgen fuel se ctx s = some (le, ctx', s') →
    s.ns = ns →
    (∀ nm a, nm ∈ ScalarExpr.scalarRefs se → ctxLookup ctx s nm = some a → rk a < B) →
    (∀ p ∈ s.cnt, lookupA s.results p = none → B ≤ rk p) →
    (EvolveLt rk B s s' ∧ ctx'.localNs = ctx.localNs)

/-- Induction package, shapeLoop. -/
def ShP (rk : AExpr → Nat) (ns : List (String × AExpr)) (fuel : Nat) : Prop :=
  ∀ shs ctx s B es ctx' s', shapeLoop fuel shs ctx s = some (es, ctx', s') →
    s.ns = ns →
    (∀ nm a, nm ∈ (shs.map ScalarExpr.scalarRefs).flatten →
      ctxLookup ctx s nm = some a → rk a < B) →
    (∀ p ∈ s.cnt, lookupA s.results p = none → B ≤ rk p) →
    (EvolveLt rk B s s' ∧ ctx'.localNs = ctx.localNs)

theorem CgP_zero {rk : AExpr → Nat} {ns : List (String × AExpr)} : CgP rk ns 0 := by
  intro e s B r s' h
  cases h

theorem BdP_zero {rk : AExpr → Nat} {ns : List (String × AExpr)} : BdP rk ns 0 := by
  intro e s r s' h
  cases h

theorem StP_zero {rk : AExpr → Nat} {ns : List (String × AExpr)} : StP rk ns 0 := by
  intro outName indices inames axis arrays i rb dep insns s B rb2 dep2 insns2 s' h _ _ _
  cases arrays with
  | nil =>
    simp only [stackLoop, Option.some.injEq, Prod.mk.injEq] at h
    rw [← h.2.2.2]
    exact EvolveLt.refl
  | cons a rest => cases h

theorem ExP_zero {rk : AExpr → Nat} {ns : List (String × AExpr)} : ExP rk ns 0 := by
  intro se ctx s B le ctx' s' h
  cases h

theorem ShP_zero {rk : AExpr → Nat} {ns : List (String × AExpr)} : ShP rk ns 0 := by
  intro shs ctx s B es ctx' s' h _ _ _
  cases shs with
  | nil =>
    simp only [shapeLoop, Option.some.injEq, Prod.mk.injEq] at h
    exact ⟨by rw [← h.2.2]; exact EvolveLt.refl, by rw [← h.2.1]⟩
  | cons c rest => cases h

/-- The memo gate: a hit answers from the memo untouched; a miss defers to
the rule body, which completes the node. -/
theorem CgP_succ {rk : AExpr → Nat} {ns : List (String × AExpr)} {fuel : Nat}
    (hbd : BdP rk ns fuel) : CgP rk ns (fuel + 1) := by
  intro e s B r s' h hns hrkB hpend
  rw [codegen_succ] at h
  split at h
  · rename_i r0 hm
    simp only [Option.some.injEq, Prod.mk.injEq] at h
    obtain ⟨rfl, rfl⟩ := h
    exact ⟨EvolveLt.refl, hm⟩
  · rename_i hm
    obtain ⟨hbody, hwr⟩ := hbd e (s.bump e) r s' h hns hm (by
      intro p hp hpn
      rcases List.mem_cons.mp hp with rfl | hp
      · exact le_refl _
      · exact le_of_lt (Nat.lt_of_lt_of_le hrkB (hpend p hp hpn)))
    obtain ⟨hbns, hbmono, hbkeys, new, hbcnt, hbnd, hbnew⟩ := hbody
    refine ⟨⟨hbns, hbmono, ?_, new ++ [e], ?_, ?_, ?_⟩, hwr⟩
    · intro k hkn hks
      exact Nat.lt_of_le_of_lt (hbkeys k hkn hks) hrkB
    · rw [hbcnt]
      show new ++ (e :: s.cnt) = (new ++ [e]) ++ s.cnt
      simp
    · refine List.Nodup.append hbnd (List.nodup_singleton e) ?_
      intro a ha hae
      rw [List.mem_singleton] at hae
      subst hae
      have := (hbnew a ha).1
      omega
    · intro q hq
      rcases List.mem_append.mp hq with hq | hq
      · obtain ⟨h1, h2, h3⟩ := hbnew q hq
        exact ⟨Nat.lt_trans h1 hrkB, h2, h3⟩
      · rw [List.mem_singleton] at hq
        subst hq
        exact ⟨hrkB, hm, by simp [hwr]⟩

/-- The inlined-expression generator: constants pass through, variables
and subscript aggregates re-enter codegen through the namespaces,
arithmetic recurses; the context's local namespace is never changed. -/
theorem ExP_succ {rk : AExpr → Nat} {ns : List (String × AExpr)} {fuel : Nat}
    (hcg : CgP rk ns fuel) (hex : ExP rk ns fuel) : ExP rk ns (fuel + 1) := by
  have harith :
      ∀ (a b : ScalarExpr) (ctx : LECtx) (s : CGState) (B : Nat)
        (ea eb : ScalarExpr) (ctx1 ctx2 : LECtx) (s1 s2 : CGState),
        exprgen fuel a ctx s = some (ea, ctx1, s1) →
        exprgen fuel b ctx1 s1 = some (eb, ctx2, s2) →
        s.ns = ns →
        (∀ nm x, nm ∈ ScalarExpr.scalarRefs a ++ ScalarExpr.scalarRefs b →
          ctxLookup ctx s nm = some x → rk x < B) →
        (∀ p ∈ s.cnt, lookupA s.results p = none → B ≤ rk p) →
        EvolveLt rk B s s2 ∧ ctx2.localNs = ctx.localNs := by
    intro a b ctx s B ea eb ctx1 ctx2 s1 s2 hA hB hns hlook hpend
    obtain ⟨hEv1, hln1⟩ := hex a ctx s B ea ctx1 s1 hA hns
      (fun nm x hnm hl => hlook nm x (List.mem_append_left _ hnm) hl) hpend
    obtain ⟨hEv2, hln2⟩ := hex b ctx1 s1 B eb ctx2 s2 hB
      (by rw [hEv1.1, hns])
      (fun nm x hnm hl => hlook nm x (List.mem_append_right _ hnm)
        (by rw [← ctxLookup_congr hln1 hEv1.1 nm]; exact hl))
      (hEv1.pend hpend)
    exact ⟨hEv1.trans hEv2, hln2.trans hln1⟩
  intro se ctx s B le ctx' s' h hns hlook hpend
  cases se with
  | const n =>
    replace h : (some (ScalarExpr.const n, ctx, s) :
        Option (ScalarExpr × LECtx × CGState)) = some (le, ctx', s') := h
    simp only [Option.some.injEq, Prod.mk.injEq] at h
    rw [← h.2.2, ← h.2.1]
    exact ⟨EvolveLt.refl, rfl⟩
  | varb name =>
    obtain ⟨a, hA, h⟩ := Option.bind_eq_some.mp h
    obtain ⟨⟨rr, s1⟩, hC, h⟩ := Option.bind_eq_some.mp h
    obtain ⟨⟨le1, ctx1⟩, hT, h⟩ := Option.bind_eq_some.mp h
    simp only [Option.some.injEq, Prod.mk.injEq] at h
    obtain ⟨-, h2, h3⟩ := h
    obtain ⟨hEv, -⟩ := hcg a s B rr s1 hC hns
      (hlook name a (by simp [ScalarExpr.scalarRefs]) hA) hpend
    rw [← h3, ← h2]
    exact ⟨hEv, toLoopy_localNs hT⟩
  | subscript agg idx =>
    obtain ⟨a, hA, h⟩ := Option.bind_eq_some.mp h
    obtain ⟨⟨rr, s1⟩, hC, h⟩ := Option.bind_eq_some.mp h
    obtain ⟨⟨le1, ctx1⟩, hT, h⟩ := Option.bind_eq_some.mp h
    simp only [Option.some.injEq, Prod.mk.injEq] at h
    obtain ⟨-, h2, h3⟩ := h
    obtain ⟨hEv, -⟩ := hcg a s B rr s1 hC hns
      (hlook agg a (by simp [ScalarExpr.scalarRefs]) hA) hpend
    rw [← h3, ← h2]
    exact ⟨hEv, toLoopy_localNs hT⟩
  | add a b =>
    obtain ⟨⟨ea, ctx1, s1⟩, hA, h⟩ := Option.bind_eq_some.mp h
    obtain ⟨⟨eb, ctx2, s2⟩, hB, h⟩ := Option.bind_eq_some.mp h
    simp only [Option.some.injEq, Prod.mk.injEq] at h
    obtain ⟨-, h2, h3⟩ := h
    rw [← h3, ← h2]
    exact harith a b ctx s B ea eb ctx1 ctx2 s1 s2 hA hB hns hlook hpend
  | sub a b =>
    obtain ⟨⟨ea, ctx1, s1⟩, hA, h⟩ := Option.bind_eq_some.mp h
    obtain ⟨⟨eb, ctx2, s2⟩, hB, h⟩ := Option.bind_eq_some.mp h
    simp only [Option.some.injEq, Prod.mk.injEq] at h
    obtain ⟨-, h2, h3⟩ := h
    rw [← h3, ← h2]
    exact harith a b ctx s B ea eb ctx1 ctx2 s1 s2 hA hB hns hlook hpend
  | mul a b =>
    obtain ⟨⟨ea, ctx1, s1⟩, hA, h⟩ := Option.bind_eq_some.mp h
    obtain ⟨⟨eb, ctx2, s2⟩, hB, h⟩ := Option.bind_eq_some.mp h
    simp only [Option.some.injEq, Prod.mk.injEq] at h
    obtain ⟨-, h2, h3⟩ := h
    rw [← h3, ← h2]
    exact harith a b ctx s B ea eb ctx1 ctx2 s1 s2 hA hB hns hlook hpend
  | emod a b =>
    obtain ⟨⟨ea, ctx1, s1⟩, hA, h⟩ := Option.bind_eq_some.mp h
    obtain ⟨⟨eb, ctx2, s2⟩, hB, h⟩ := Option.bind_eq_some.mp h
    simp only [Option.some.injEq, Prod.mk.injEq] at h
    obtain ⟨-, h2, h3⟩ := h
    rw [← h3, ← h2]
    exact harith a b ctx s B ea eb ctx1 ctx2 s1 s2 hA hB hns hlook hpend
  | reduction op inames body => exact Option.noConfusion h

/-- The shape-lowering loop evolves the state through exprgen on each
component. -/
theorem ShP_succ {rk : AExpr → Nat} {ns : List (String × AExpr)} {fuel : Nat}
    (hex : ExP rk ns fuel) (hsh : ShP rk ns fuel) : ShP rk ns (fuel + 1) := by
  intro shs ctx s B es ctx' s' h hns hlook hpend
  cases shs with
  | nil =>
    replace h : (some (([] : List ScalarExpr), ctx, s) :
        Option (List ScalarExpr × LECtx × CGState)) = some (es, ctx', s') := h
    simp only [Option.some.injEq, Prod.mk.injEq] at h
    rw [← h.2.2, ← h.2.1]
    exact ⟨EvolveLt.refl, rfl⟩
  | cons c rest =>
    obtain ⟨⟨e1, ctx1, s1⟩, hA, h⟩ := Option.bind_eq_some.mp h
    obtain ⟨hEv1, hln1⟩ := hex c ctx s B e1 ctx1 s1 hA hns
      (fun nm x hnm hl => hlook nm x (by
        simp only [List.map_cons, List.flatten_cons, List.mem_append]
        exact Or.inl hnm) hl) hpend
    replace h : (if ctx1.dependsOn = [] ∧ ctx1.reductionBounds = [] then
        (shapeLoop fuel rest ctx1 s1).bind
          (fun x => some (e1 :: x.1, x.2.1, x.2.2))
      else none) = some (es, ctx', s') := h
    split at h
    · obtain ⟨⟨es2, ctx2, s2⟩, hB, h⟩ := Option.bind_eq_some.mp h
      simp only [Option.some.injEq, Prod.mk.injEq] at h
      obtain ⟨-, h2, h3⟩ := h
      obtain ⟨hEv2, hln2⟩ := hsh rest ctx1 s1 B es2 ctx2 s2 hB
        (by rw [hEv1.1, hns])
        (fun nm x hnm hl => hlook nm x (by
          simp only [List.map_cons, List.flatten_cons, List.mem_append]
          exact Or.inr hnm)
          (by rw [← ctxLookup_congr hln1 hEv1.1 nm]; exact hl))
        (hEv1.pend hpend)
      rw [← h3, ← h2]
      exact ⟨hEv1.trans hEv2, hln2.trans hln1⟩
    · exact Option.noConfusion h

/-- The per-constituent loop of map_stack: each constituent re-enters
codegen; everything else is kernel- and generator-local. -/
theorem StP_succ {rk : AExpr → Nat} {ns : List (String × AExpr)} {fuel : Nat}
    (hcg : CgP rk ns fuel) (hst : StP rk ns fuel) : StP rk ns (fuel + 1) := by
  intro outName indices inames axis arrays i rb dep insns s B rb2 dep2 insns2 s'
    h hns harr hpend
  cases arrays with
  | nil =>
    replace h : (some (rb, dep, insns, s) :
        Option (List (String × ScalarExpr × ScalarExpr) × List String ×
          List Insn × CGState)) = some (rb2, dep2, insns2, s') := h
    simp only [Option.some.injEq, Prod.mk.injEq] at h
    rw [← h.2.2.2]
    exact EvolveLt.refl
  | cons a rest =>
    obtain ⟨⟨ares, s1⟩, hC, h⟩ := Option.bind_eq_some.mp h
    obtain ⟨⟨le, ctx1⟩, hT, h⟩ := Option.bind_eq_some.mp h
    obtain ⟨hEv1, -⟩ := hcg a s B ares s1 hC hns
      (harr a (List.mem_cons_self a rest)) hpend
    have hEv2 := hst outName indices inames axis rest (i + 1) _ _ _ _ B
      rb2 dep2 insns2 s' h (hEv1.1.trans hns)
      (fun x hx => harr x (List.mem_cons_of_mem a hx))
      (hEv1.pend hpend)
    exact hEv1.trans ((EvolveLt.of_frame rfl rfl rfl).trans hEv2)

theorem ctxLookup_cases {ctx : LECtx} {s : CGState} {nm : String} {a : AExpr}
    (h : ctxLookup ctx s nm = some a) :
    lookupA ctx.localNs nm = some a ∨
      (lookupA ctx.localNs nm = none ∧ lookupA s.ns nm = some a) := by
  unfold ctxLookup at h
  cases hb : lookupA ctx.localNs nm with
  | some v =>
    rw [hb] at h
    exact Or.inl h
  | none =>
    rw [hb] at h
    exact Or.inr ⟨rfl, h⟩

/-- Each lowering-rule body recurses only into constituents and
namespace-resolved nodes of strictly smaller rank, and ends by memoizing
the node it lowers. -/
theorem BdP_succ {rk : AExpr → Nat} {ns : List (String × AExpr)} {fuel : Nat}
    (hrank : RankOk rk ns) (hcg : CgP rk ns fuel) (hst : StP rk ns fuel)
    (hex : ExP rk ns fuel) (hsh : ShP rk ns fuel) : BdP rk ns (fuel + 1) := by
  intro e s r s' h hns hnone hpend
  cases e with
  | sizeParam name dt =>
    have h' := Option.some.inj h
    simp only [Prod.mk.injEq] at h'
    obtain ⟨h1, h2⟩ := h'
    subst h1
    subst h2
    exact BodyEvolve.of_sub (EvolveLt.of_frame rfl rfl rfl) hnone _
  | placeholder name sh dt =>
    obtain ⟨⟨shape2, sctx, s1⟩, hS, h⟩ := Option.bind_eq_some.mp h
    obtain ⟨hEv1, -⟩ := hsh sh _ s (rk (AExpr.placeholder name sh dt)) shape2 sctx s1
      hS hns
      (by
        intro nm x hnm hl
        rcases ctxLookup_cases hl with hlc | ⟨-, hg⟩
        · exact Option.noConfusion hlc
        · exact hrank.2 (AExpr.placeholder name sh dt) nm x hnm (by rw [← hns]; exact hg))
      hpend
    have h' := Option.some.inj h
    simp only [Prod.mk.injEq] at h'
    obtain ⟨h1, h2⟩ := h'
    subst h1
    subst h2
    exact BodyEvolve.of_sub (hEv1.trans (EvolveLt.of_frame rfl rfl rfl)) hnone _
  | dataWrapper name d sh dt =>
    obtain ⟨⟨shape2, sctx, s1⟩, hS, h⟩ := Option.bind_eq_some.mp h
    obtain ⟨hEv1, -⟩ := hsh sh _ s (rk (AExpr.dataWrapper name d sh dt)) shape2 sctx s1
      hS hns
      (by
        intro nm x hnm hl
        rcases ctxLookup_cases hl with hlc | ⟨-, hg⟩
        · exact Option.noConfusion hlc
        · exact hrank.2 (AExpr.dataWrapper name d sh dt) nm x hnm (by rw [← hns]; exact hg))
      hpend
    have h' := Option.some.inj h
    simp only [Prod.mk.injEq] at h'
    obtain ⟨h1, h2⟩ := h'
    subst h1
    subst h2
    exact BodyEvolve.of_sub (hEv1.trans (EvolveLt.of_frame rfl rfl rfl)) hnone _
  | matrixProduct x1 x2 =>
    obtain ⟨⟨x1res, s1⟩, hC1, h⟩ := Option.bind_eq_some.mp h
    obtain ⟨⟨x2res, s2⟩, hC2, h⟩ := Option.bind_eq_some.mp h
    obtain ⟨extent, hE, h⟩ := Option.bind_eq_some.mp h
    obtain ⟨⟨e1, ctxA⟩, hT1, h⟩ := Option.bind_eq_some.mp h
    obtain ⟨⟨e2, ctxB⟩, hT2, h⟩ := Option.bind_eq_some.mp h
    obtain ⟨⟨insnId, s4⟩, hAS, h⟩ := Option.bind_eq_some.mp h
    obtain ⟨hEv1, -⟩ := hcg x1 s (rk (AExpr.matrixProduct x1 x2)) x1res s1 hC1 hns
      (hrank.1 _ x1 (by simp [codegenChildren])) hpend
    obtain ⟨hEv2, -⟩ := hcg x2 s1 (rk (AExpr.matrixProduct x1 x2)) x2res s2 hC2
      (hEv1.1.trans hns)
      (hrank.1 _ x2 (by simp [codegenChildren])) (hEv1.pend hpend)
    obtain ⟨hfn, hfr, hfc⟩ := addStore_frame hAS
    have h' := Option.some.inj h
    simp only [Prod.mk.injEq] at h'
    obtain ⟨h1, h2⟩ := h'
    subst h1
    subst h2
    exact BodyEvolve.of_sub
      (hEv1.trans (hEv2.trans ((EvolveLt.of_frame rfl rfl rfl).trans
        (EvolveLt.of_frame hfn hfr hfc)))) hnone _
  | stack arrays axis =>
    obtain ⟨⟨rb0, dep0, insns0, s1⟩, hSL, h⟩ := Option.bind_eq_some.mp h
    obtain ⟨a0, hA0, h⟩ := Option.bind_eq_some.mp h
    obtain ⟨domain, hD, h⟩ := Option.bind_eq_some.mp h
    have hEvSL := hst _ _ _ _ arrays _ _ _ _ _ (rk (AExpr.stack arrays axis))
      rb0 dep0 insns0 s1 hSL hns
      (fun x hx => hrank.1 _ x (by simpa [codegenChildren] using hx))
      hpend
    have h' := Option.some.inj h
    simp only [Prod.mk.injEq] at h'
    obtain ⟨h1, h2⟩ := h'
    subst h1
    subst h2
    exact BodyEvolve.of_sub
      ((EvolveLt.of_frame rfl rfl rfl).trans
        (hEvSL.trans (EvolveLt.of_frame rfl rfl rfl))) hnone _
  | roll array shift axis =>
    obtain ⟨⟨childRes, s1⟩, hC, h⟩ := Option.bind_eq_some.mp h
    obtain ⟨⟨le, ctx1⟩, hT, h⟩ := Option.bind_eq_some.mp h
    obtain ⟨hEv1, -⟩ := hcg array s (rk (AExpr.roll array shift axis)) childRes s1 hC
      hns (hrank.1 _ array (by simp [codegenChildren])) hpend
    have h' := Option.some.inj h
    simp only [Prod.mk.injEq] at h'
    obtain ⟨h1, h2⟩ := h'
    subst h1
    subst h2
    exact BodyEvolve.of_sub hEv1 hnone _
  | axisPermutation array axes =>
    obtain ⟨indices, hI, h⟩ := Option.bind_eq_some.mp h
    obtain ⟨⟨childRes, s1⟩, hC, h⟩ := Option.bind_eq_some.mp h
    obtain ⟨⟨le, ctx1⟩, hT, h⟩ := Option.bind_eq_some.mp h
    obtain ⟨hEv1, -⟩ := hcg array s (rk (AExpr.axisPermutation array axes)) childRes s1
      hC hns (hrank.1 _ array (by simp [codegenChildren])) hpend
    have h' := Option.some.inj h
    simp only [Prod.mk.injEq] at h'
    obtain ⟨h1, h2⟩ := h'
    subst h1
    subst h2
    exact BodyEvolve.of_sub hEv1 hnone _
  | slice array begins stops =>
    obtain ⟨⟨childRes, s1⟩, hC, h⟩ := Option.bind_eq_some.mp h
    obtain ⟨⟨le, ctx1⟩, hT, h⟩ := Option.bind_eq_some.mp h
    obtain ⟨hEv1, -⟩ := hcg array s (rk (AExpr.slice array begins stops)) childRes s1
      hC hns (hrank.1 _ array (by simp [codegenChildren])) hpend
    have h' := Option.some.inj h
    simp only [Prod.mk.injEq] at h'
    obtain ⟨h1, h2⟩ := h'
    subst h1
    subst h2
    exact BodyEvolve.of_sub hEv1 hnone _
  | indexLambda eb sh dt bindings =>
    obtain ⟨⟨le, ctx1, s1⟩, hX, h⟩ := Option.bind_eq_some.mp h
    obtain ⟨hEv1, -⟩ := hex eb _ s (rk (AExpr.indexLambda eb sh dt bindings)) le ctx1 s1
      hX hns
      (by
        intro nm x hnm hl
        rcases ctxLookup_cases hl with hlc | ⟨hln, hg⟩
        · refine hrank.1 (AExpr.indexLambda eb sh dt bindings) x ?_
          simp only [codegenChildren, List.mem_map]
          exact ⟨(nm, x), lookupA_mem hlc, rfl⟩
        · refine hrank.2 (AExpr.indexLambda eb sh dt bindings) nm x ?_
            (by rw [← hns]; exact hg)
          simp only [nodeRefs, List.mem_filter, decide_eq_true_eq]
          refine ⟨hnm, ?_⟩
          intro hmem
          have := (lookupA_isSome_iff_mem_keys bindings nm).mpr hmem
          rw [show lookupA bindings nm = none from hln] at this
          cases this)
      hpend
    have h' := Option.some.inj h
    simp only [Prod.mk.injEq] at h'
    obtain ⟨h1, h2⟩ := h'
    subst h1
    subst h2
    exact BodyEvolve.of_sub hEv1 hnone _

/-- The combined memoization invariant of CodeGenMapper, for every fuel. -/
theorem codegen_invariant (rk : AExpr → Nat) (ns : List (String × AExpr))
    (hrank : RankOk rk ns) :
    ∀ fuel, CgP rk ns fuel ∧ BdP rk ns fuel ∧ StP rk ns fuel ∧
      ExP rk ns fuel ∧ ShP rk ns fuel := by
  intro fuel
  induction fuel with
  | zero => exact ⟨CgP_zero, BdP_zero, StP_zero, ExP_zero, ShP_zero⟩
  | succ fuel ih =>
    obtain ⟨ihCg, ihBd, ihSt, ihEx, ihSh⟩ := ih
    have hBd := BdP_succ hrank ihCg ihSt ihEx ihSh
    exact ⟨CgP_succ ihBd, hBd, StP_succ ihCg ihSt, ExP_succ ihCg ihEx,
      ShP_succ ihEx ihSh⟩

/-- Every rule body writes its result into the memo before returning
(unconditionally: each arm of codegenBody ends in memoize). -/
theorem codegenBody_writes :
    ∀ fuel (e : AExpr) (s : CGState) r s', codegenBody fuel e s = some (r, s') →
      lookupA s'.results e = some r := by
  intro fuel e s r s' h
  match fuel with
  | 0 => cases h
  | fuel + 1 =>
    cases e with
    | sizeParam name dt =>
      have h' := Option.some.inj h
      simp only [Prod.mk.injEq] at h'
      rw [← h'.2, ← h'.1, CGState.memoize]
      exact lookupA_setA_self _ _ _
    | placeholder name sh dt =>
      obtain ⟨⟨shape2, sctx, s1⟩, hS, h⟩ := Option.bind_eq_some.mp h
      have h' := Option.some.inj h
      simp only [Prod.mk.injEq] at h'
      rw [← h'.2, ← h'.1, CGState.memoize]
      exact lookupA_setA_self _ _ _
    | dataWrapper name d sh dt =>
      obtain ⟨⟨shape2, sctx, s1⟩, hS, h⟩ := Option.bind_eq_some.mp h
      have h' := Option.some.inj h
      simp only [Prod.mk.injEq] at h'
      rw [← h'.2, ← h'.1, CGState.memoize]
      exact lookupA_setA_self _ _ _
    | matrixProduct x1 x2 =>
      obtain ⟨⟨x1res, s1⟩, hC1, h⟩ := Option.bind_eq_some.mp h
      obtain ⟨⟨x2res, s2⟩, hC2, h⟩ := Option.bind_eq_some.mp h
      obtain ⟨extent, hE, h⟩ := Option.bind_eq_some.mp h
      obtain ⟨⟨e1, ctxA⟩, hT1, h⟩ := Option.bind_eq_some.mp h
      obtain ⟨⟨e2, ctxB⟩, hT2, h⟩ := Option.bind_eq_some.mp h
      obtain ⟨⟨insnId, s4⟩, hAS, h⟩ := Option.bind_eq_some.mp h
      have h' := Option.some.inj h
      simp only [Prod.mk.injEq] at h'
      rw [← h'.2, ← h'.1, CGState.memoize]
      exact lookupA_setA_self _ _ _
    | stack arrays axis =>
      obtain ⟨⟨rb0, dep0, insns0, s1⟩, hSL, h⟩ := Option.bind_eq_some.mp h
      obtain ⟨a0, hA0, h⟩ := Option.bind_eq_some.mp h
      obtain ⟨domain, hD, h⟩ := Option.bind_eq_some.mp h
      have h' := Option.some.inj h
      simp only [Prod.mk.injEq] at h'
      rw [← h'.2, ← h'.1, CGState.memoize]
      exact lookupA_setA_self _ _ _
    | roll array shift axis =>
      obtain ⟨⟨childRes, s1⟩, hC, h⟩ := Option.bind_eq_some.mp h
      obtain ⟨⟨le, ctx1⟩, hT, h⟩ := Option.bind_eq_some.mp h
      have h' := Option.some.inj h
      simp only [Prod.mk.injEq] at h'
      rw [← h'.2, ← h'.1, CGState.memoize]
      exact lookupA_setA_self _ _ _
    | axisPermutation array axes =>
      obtain ⟨indices, hI, h⟩ := Option.bind_eq_some.mp h
      obtain ⟨⟨childRes, s1⟩, hC, h⟩ := Option.bind_eq_some.mp h
      obtain ⟨⟨le, ctx1⟩, hT, h⟩ := Option.bind_eq_some.mp h
      have h' := Option.some.inj h
      simp only [Prod.mk.injEq] at h'
      rw [← h'.2, ← h'.1, CGState.memoize]
      exact lookupA_setA_self _ _ _
    | slice array begins stops =>
      obtain ⟨⟨childRes, s1⟩, hC, h⟩ := Option.bind_eq_some.mp h
      obtain ⟨⟨le, ctx1⟩, hT, h⟩ := Option.bind_eq_some.mp h
      have h' := Option.some.inj h
      simp only [Prod.mk.injEq] at h'
      rw [← h'.2, ← h'.1, CGState.memoize]
      exact lookupA_setA_self _ _ _
    | indexLambda eb sh dt bindings =>
      obtain ⟨⟨le, ctx1, s1⟩, hX, h⟩ := Option.bind_eq_some.mp h
      have h' := Option.some.inj h
      simp only [Prod.mk.injEq] at h'
      rw [← h'.2, ← h'.1, CGState.memoize]
      exact lookupA_setA_self _ _ _

/-- codegen always leaves the node memoized to the returned result,
whether by gate hit or after running the body. -/
theorem codegen_writes :
    ∀ fuel (e : AExpr) (s : CGState) r s', codegen fuel e s = some (r, s') →
      lookupA s'.results e = some r := by
  intro fuel e s r s' h
  match fuel with
  | 0 => cases h
  | fuel + 1 =>
    rw [codegen_succ] at h
    split at h
    · rename_i r0 hm
      simp only [Option.some.injEq, Prod.mk.injEq] at h
      obtain ⟨rfl, rfl⟩ := h
      exact hm
    · exact codegenBody_writes fuel e _ r s' h

/-- The instrumentation invariant kept across the top-level loops of
generate_loopy: every entered node is completed, and no node was entered
twice. -/
def DoneCnt (s : CGState) : Prop := ∀ p ∈ s.cnt, (lookupA s.results p).isSome

theorem top_codegen_step {rk : AExpr → Nat} {ns : List (String × AExpr)}
    (hrank : RankOk rk ns) {fuel : Nat} {e : AExpr} {s : CGState}
    {r : ImplementedResult} {s' : CGState}
    (h : codegen fuel e s = some (r, s')) (hns : s.ns = ns)
    (hdone : DoneCnt s) (hnd : s.cnt.Nodup) :
    s'.ns = ns ∧ DoneCnt s' ∧ s'.cnt.Nodup := by
  obtain ⟨hEv, -⟩ := (codegen_invariant rk ns hrank fuel).1 e s (rk e + 1) r s' h hns
    (Nat.lt_succ_self _)
    (by
      intro p hp hpn
      have := hdone p hp
      rw [hpn] at this
      cases this)
  obtain ⟨hens, hmono, -, new, hcnt, hndnew, hnew⟩ := hEv
  refine ⟨hens.trans hns, ?_, ?_⟩
  · intro p hp
    rw [hcnt, List.mem_append] at hp
    rcases hp with hp | hp
    · exact (hnew p hp).2.2
    · obtain ⟨v, hv⟩ := Option.isSome_iff_exists.mp (hdone p hp)
      simp [hmono p v hv]
  · rw [hcnt]
    refine List.Nodup.append hndnew hnd ?_
    intro q hq hq2
    have h1 := (hnew q hq).2.1
    have h2 := hdone q hq2
    rw [h1] at h2
    cases h2

theorem lowerNamespace_cnt {rk : AExpr → Nat} {ns : List (String × AExpr)}
    (hrank : RankOk rk ns) {fuel : Nat} :
    ∀ (pairs : List (String × AExpr)) (s s' : CGState),
      lowerNamespace fuel pairs s = some s' →
      s.ns = ns → DoneCnt s → s.cnt.Nodup →
      s'.ns = ns ∧ DoneCnt s' ∧ s'.cnt.Nodup := by
  intro pairs
  induction pairs with
  | nil =>
    intro s s' h hns hdone hnd
    have h' := Option.some.inj h
    rw [← h']
    exact ⟨hns, hdone, hnd⟩
  | cons p rest ih =>
    intro s s' h hns hdone hnd
    obtain ⟨⟨r1, s1⟩, hC, h⟩ := Option.bind_eq_some.mp h
    obtain ⟨h1, h2, h3⟩ := top_codegen_step hrank hC hns hdone hnd
    exact ih s1 s' h h1 h2 h3

theorem storeOutputs_cnt {rk : AExpr → Nat} {ns : List (String × AExpr)}
    (hrank : RankOk rk ns) {fuel : Nat} :
    ∀ (outs : List (String × AExpr)) (s s' : CGState),
      storeOutputs fuel outs s = some s' →
      s.ns = ns → DoneCnt s → s.cnt.Nodup →
      s'.ns = ns ∧ DoneCnt s' ∧ s'.cnt.Nodup := by
  intro outs
  induction outs with
  | nil =>
    intro s s' h hns hdone hnd
    have h' := Option.some.inj h
    rw [← h']
    exact ⟨hns, hdone, hnd⟩
  | cons p rest ih =>
    intro s s' h hns hdone hnd
    obtain ⟨⟨r1, s1⟩, hC, h⟩ := Option.bind_eq_some.mp h
    obtain ⟨⟨insnId, s2⟩, hA, h⟩ := Option.bind_eq_some.mp h
    obtain ⟨h1, h2, h3⟩ := top_codegen_step hrank hC hns hdone hnd
    obtain ⟨hfn, hfr, hfc⟩ := addStore_frame hA
    refine ih s2 s' h (hfn.trans h1) ?_ ?_
    · intro q hq
      rw [hfc] at hq
      rw [hfr]
      exact h2 q hq
    · rw [hfc]
      exact h3
